import Mathlib

/-!
# Verification of the pokemanteu generative core

Shallow embedding of the two algorithmic components of the repository:

* `poke_markov.py` — the multi-corpus Markov fusion engine
  (`MultiMarkovModel`: `train`, `_get_fused_probabilities`, `generate`,
  `export_to_json`, `load_from_json`);
* `inference.py` — the batched beam-search decoder
  (`decode_sequence_beam_batched`).

Python floats are modelled by `ℚ` (exact arithmetic standing in for IEEE
doubles); Python dicts, `defaultdict(Counter)` tables and `Counter`s are
modelled by association lists in insertion order, which is the iteration
order of Python dicts.  Symbols are `String`s (an item string is its list
of one-character symbols).
-/

namespace PokeMarkov

abbrev Sym := String
abbrev Ctx := List Sym
/-- A `collections.Counter` keyed by symbols: an association list whose
keys are unique by construction, in insertion order. -/
abbrev Counter := List (Sym × Nat)
/-- A `defaultdict(Counter)` keyed by context tuples. -/
abbrev Table := List (Ctx × Counter)

def START_TOKEN : Sym := "<START>"
def END_TOKEN : Sym := "<END>"

/-- `Counter.__getitem__`: 0 for a missing key (no insertion). -/
def counterGet : Counter → Sym → Nat
  | [], _ => 0
  | (k, v) :: rest, s => if k = s then v else counterGet rest s

/-- `counter[s] += 1`: update in place, or append a fresh key at the end
(Python dict insertion order). -/
def counterIncr : Counter → Sym → Counter
  | [], s => [(s, 1)]
  | (k, v) :: rest, s =>
    if k = s then (k, v + 1) :: rest else (k, v) :: counterIncr rest s

/-- `sum(counter.values())`. -/
def counterTotal (c : Counter) : Nat :=
  (c.map Prod.snd).sum

/-- `table.get(state, Counter())`. -/
def tableGet (t : Table) (state : Ctx) : Counter :=
  match t.find? fun p => p.1 == state with
  | some p => p.2
  | none => []

/-- `table[state][next_char] += 1` on a `defaultdict(Counter)`: a missing
state key is appended at the end with a fresh counter. -/
def tableIncr : Table → Ctx → Sym → Table
  | [], st, s => [(st, [(s, 1)])]
  | (k, c) :: rest, st, s =>
    if k = st then (k, counterIncr c s) :: rest
    else (k, c) :: tableIncr rest st s

/-- The state of a `MultiMarkovModel` instance: `order`, the per-corpus
transition tables (`self.models`, a dict in insertion order) and
`default_weights`. -/
structure MultiMarkovModel where
  order : Nat
  models : List (String × Table)
  default_weights : List (String × ℚ)
  deriving DecidableEq

/-- `MultiMarkovModel.__init__(order, default_weights)`; `self.models = {}`
(the `default_weights or {}` fallback is the caller passing `[]`). -/
def initModel (order : Nat) (dw : List (String × ℚ)) : MultiMarkovModel :=
  ⟨order, [], dw⟩

/-- `if model_name not in self.models: self.models[model_name] = defaultdict(Counter)`:
register an empty table under a new name (appended, per dict order). -/
def modelsEnsure (ms : List (String × Table)) (name : String) : List (String × Table) :=
  if (ms.find? fun p => p.1 == name).isSome then ms else ms ++ [(name, [])]

/-- Updating the table stored under `name` (names are unique in a Python
dict, so mapping over all matching entries is the in-place update). -/
def modelsUpdate (ms : List (String × Table)) (name : String) (f : Table → Table) :
    List (String × Table) :=
  ms.map fun p => if p.1 == name then (p.1, f p.2) else p

/-- The body of the training loop of `MultiMarkovModel.train` for one item:
pad with `order` START markers on the left and one END marker on the right,
then for every window of length `order+1` increment the (context → next
symbol) count. -/
def trainItem (order : Nat) (t : Table) (item : List Sym) : Table :=
  let padded := List.replicate order START_TOKEN ++ item ++ [END_TOKEN]
  (List.range (padded.length - order)).foldl
    (fun acc i => tableIncr acc ((padded.drop i).take order) (padded.getD (i + order) ""))
    t

/-- `MultiMarkovModel.train(model_name, data_list)`. -/
def train (m : MultiMarkovModel) (name : String) (data : List (List Sym)) :
    MultiMarkovModel :=
  { m with
    models := modelsUpdate (modelsEnsure m.models name) name
      (fun t => data.foldl (trainItem m.order) t) }

/-- One entry of the `active_models` dict built by
`_get_fused_probabilities`: the context's counter, its total and the
caller-supplied weight. -/
structure ActiveModel where
  counter : Counter
  total : Nat
  weight : ℚ
  deriving DecidableEq

/-- The `active_models` filter of `_get_fused_probabilities`: keep the
corpora named in `weights` that exist, have positive weight and have a
positive observation total for `state`. -/
def activeModels (m : MultiMarkovModel) (state : Ctx) (weights : List (String × ℚ)) :
    List ActiveModel :=
  weights.filterMap fun p =>
    let name := p.1
    let w : ℚ := p.2
    match m.models.find? fun q => q.1 == name with
    | none => none
    | some q =>
      if 0 < w then
        let counter := tableGet q.2 state
        if 0 < counterTotal counter then
          some ⟨counter, counterTotal counter, w⟩
        else none
      else none

/-- `MultiMarkovModel._get_fused_probabilities(state, weights)`.
Python iterates `all_chars` as a `set`, whose order is unspecified; the
embedding uses the deduplicated concatenation of the active counters' key
lists as a concrete set order. -/
def getFused (m : MultiMarkovModel) (state : Ctx) (weights : List (String × ℚ)) :
    List Sym × List ℚ :=
  let active := activeModels m state weights
  if active.isEmpty then ([], []) else
  let W : ℚ := (active.map ActiveModel.weight).sum
  let all_chars := (active.flatMap fun a => a.counter.map Prod.fst).dedup
  (all_chars,
   all_chars.map fun ch =>
     (active.map fun a =>
       (a.weight / W) * ((counterGet a.counter ch : ℚ) / (a.total : ℚ))).sum)

/-- One pass of the `while len(generated_chars) < max_length` loop of
`MultiMarkovModel.generate`, with the loop guard as structural fuel
(`steps` starts at `max_length` and generation grows by one per turn).
`random.choices(population, weights=probs)` is external randomness: it is
modelled by consuming one index from the caller-supplied `draws` stream
(which picks an element of the population); the distribution itself is not
part of the algorithm under proof.  The `return self.generate(...)` retry
on a premature END is signalled to the (fuelled) outer wrapper. -/
inductive GenOut where
  | done (gen : List Sym)
  | restart (draws : List Nat)
  deriving DecidableEq

def genSteps (m : MultiMarkovModel) (w : List (String × ℚ)) (minL : Nat) :
    Nat → List Nat → List Sym → Ctx → GenOut
  | 0, _, gen, _ => .done gen
  | steps + 1, draws, gen, state =>
    let pp := getFused m state w
    if pp.1.isEmpty then .done gen
    else
      let next := pp.1.getD ((draws.headD 0) % pp.1.length) ""
      if next = END_TOKEN then
        if minL ≤ gen.length then .done gen else .restart draws.tail
      else
        genSteps m w minL steps draws.tail (gen ++ [next]) (state.drop 1 ++ [next])

/-- The unbounded `return self.generate(weights, min_length, max_length)`
restart, given bounded retry fuel; `none` models the Python call never
returning (the latent liveness risk named by the spec). -/
def genRetry (m : MultiMarkovModel) (w : List (String × ℚ)) (minL maxL : Nat) :
    Nat → List Nat → Option (List Sym)
  | retry, draws =>
    match genSteps m w minL maxL draws [] (List.replicate m.order START_TOKEN) with
    | .done gen => some gen
    | .restart draws2 =>
      match retry with
      | 0 => none
      | r + 1 => genRetry m w minL maxL r draws2

/-- The body of `generate` after the weight check (initial state, loop,
`"".join(generated_chars)`). -/
def generateRun (m : MultiMarkovModel) (w : List (String × ℚ)) (minL maxL : Nat)
    (draws : List Nat) (retry : Nat) : Except String String :=
  match genRetry m w minL maxL retry draws with
  | some gen => Except.ok (String.join gen)
  | none => Except.error "generation retry fuel exhausted"

/-- `MultiMarkovModel.generate(weights, min_length, max_length)`:
`weights = weights or self.default_weights` (both `None` and an empty dict
are falsy, modelled by `[]`), then `raise ValueError` when still empty. -/
def generate (m : MultiMarkovModel) (weights : List (String × ℚ)) (minL maxL : Nat)
    (draws : List Nat) (retry : Nat) : Except String String :=
  let w := if weights.isEmpty then m.default_weights else weights
  if w.isEmpty then
    Except.error "Must provide weights or set default_weights during init."
  else generateRun m w minL maxL draws retry

/-! ### Serialization (`export_to_json` / `load_from_json`)

`export_to_json` stores each context tuple as the string `json.dumps(state)`
and `load_from_json` recovers it with `tuple(json.loads(state_str))`.  The
embedding spells out that encoding for tuples of strings — a bracketed,
`", "`-separated list of quoted strings, escaping `"` and `\` — together
with an executable decoder.  (`json.dumps` additionally escapes control and
non-ASCII characters; that detail changes neither injectivity nor the
round-trip and is omitted.) -/

/-- Escape one character of a JSON string literal. -/
def escChar (c : Char) : List Char :=
  if c = '"' ∨ c = '\\' then ['\\', c] else [c]

/-- The escaped body of a JSON string literal. -/
def encStrChars (cs : List Char) : List Char := cs.flatMap escChar

/-- A JSON string literal (character form). -/
def encLit (s : String) : List Char :=
  '"' :: encStrChars s.data ++ ['"']

/-- The `", "`-separated item list of `json.dumps` on a tuple of strings. -/
def encCtxChars : Ctx → List Char
  | [] => []
  | [s] => encLit s
  | s :: rest => encLit s ++ ',' :: ' ' :: encCtxChars rest

/-- `json.dumps(state)` for a tuple of strings. -/
def jsonEncodeCtx (st : Ctx) : String :=
  String.mk ('[' :: encCtxChars st ++ [']'])

/-- Decode the body of a string literal after its opening quote; return the
content and the remaining input after the closing quote. -/
def decStrChars : List Char → Option (List Char × List Char)
  | [] => none
  | '"' :: rest => some ([], rest)
  | '\\' :: [] => none
  | '\\' :: d :: rest2 => (decStrChars rest2).map fun p => (d :: p.1, p.2)
  | c :: rest => (decStrChars rest).map fun p => (c :: p.1, p.2)

/-- Decode one string literal (with its opening quote). -/
def decLit (cs : List Char) : Option (List Char × List Char) :=
  match cs with
  | '"' :: rest => decStrChars rest
  | _ => none

/-- Decode a nonempty `", "`-separated item list followed by `]`. -/
def decItems : Nat → List Char → Option (List String × List Char)
  | 0, _ => none
  | fuel + 1, cs =>
    match decLit cs with
    | none => none
    | some sr =>
      match sr.2 with
      | ']' :: r2 => some ([String.mk sr.1], r2)
      | ',' :: ' ' :: r2 =>
        match decItems fuel r2 with
        | some ssr => some (String.mk sr.1 :: ssr.1, ssr.2)
        | none => none
      | _ => none

/-- `tuple(json.loads(state_str))` for an encoded tuple of strings. -/
def jsonDecodeCtx (s : String) : Option Ctx :=
  match s.data with
  | '[' :: rest =>
    if rest = [']'] then some []
    else
      match decItems (rest.length + 1) rest with
      | some p => if p.2.isEmpty then some p.1 else none
      | none => none
  | _ => none

/-- The JSON document written by `export_to_json`: `order`,
`default_weights`, and per-corpus tables keyed by serialized contexts
(`dict(counts)` is the identity on the counter's association list). -/
structure ExportData where
  order : Nat
  default_weights : List (String × ℚ)
  models : List (String × List (String × Counter))
  deriving DecidableEq

/-- `MultiMarkovModel.export_to_json` (the written JSON document). -/
def export_to_json (m : MultiMarkovModel) : ExportData :=
  { order := m.order
    default_weights := m.default_weights
    models := m.models.map fun p =>
      (p.1, p.2.map fun q => (jsonEncodeCtx q.1, q.2)) }

/-- `MultiMarkovModel.load_from_json`: rebuild each table with
`tuple(json.loads(state_str))` keys and `Counter(counts)` values (the
identity on the stored association list). -/
def load_from_json (d : ExportData) : MultiMarkovModel :=
  { order := d.order
    default_weights := d.default_weights
    models := d.models.map fun p =>
      (p.1, p.2.map fun q => ((jsonDecodeCtx q.1).getD [], q.2)) }

/-! ### Well-formedness

A counter built by training has pairwise-distinct keys (it models a Python
dict).  `ModelWF` states this for every counter of every table of the
model; it is established for the empty model and preserved by `train`. -/

/-- The keys of a counter are pairwise distinct. -/
abbrev CounterWF (c : Counter) : Prop := (c.map Prod.fst).Nodup

/-- Every counter reachable in the model's tables has distinct keys. -/
abbrev ModelWF (m : MultiMarkovModel) : Prop :=
  ∀ q ∈ m.models, ∀ pr ∈ q.2, CounterWF pr.2

theorem counterIncr_keys (c : Counter) (s : Sym) :
    (counterIncr c s).map Prod.fst =
      if s ∈ c.map Prod.fst then c.map Prod.fst else c.map Prod.fst ++ [s] := by
  induction c with
  | nil => simp [counterIncr]
  | cons p rest ih =>
    by_cases h : p.1 = s
    · simp [counterIncr, h]
    · simp only [counterIncr, h, if_false, List.map_cons, ih]
      by_cases h2 : s ∈ rest.map Prod.fst
      · simp [h2, Ne.symm h]
      · simp [h2, Ne.symm h]

theorem counterIncr_wf (c : Counter) (s : Sym) (h : CounterWF c) :
    CounterWF (counterIncr c s) := by
  unfold CounterWF at h ⊢
  rw [counterIncr_keys]
  by_cases h2 : s ∈ c.map Prod.fst
  · simpa [h2]
  · simpa [h2] using List.Nodup.append h (List.nodup_singleton s) (by simpa using h2)

theorem tableIncr_wf (t : Table) (st : Ctx) (s : Sym)
    (h : ∀ pr ∈ t, CounterWF pr.2) : ∀ pr ∈ tableIncr t st s, CounterWF pr.2 := by
  induction t with
  | nil =>
    intro pr hpr
    simp only [tableIncr, List.mem_singleton] at hpr
    subst hpr; simp [CounterWF]
  | cons p rest ih =>
    intro pr hpr
    by_cases hk : p.1 = st
    · simp only [tableIncr, hk, if_true, List.mem_cons] at hpr
      rcases hpr with h1 | h2
      · subst h1
        exact counterIncr_wf _ _ (h p (List.mem_cons_self _ _))
      · exact h pr (List.mem_cons_of_mem _ h2)
    · simp only [tableIncr, hk, if_false, List.mem_cons] at hpr
      rcases hpr with h1 | h2
      · subst h1; exact h p (List.mem_cons_self _ _)
      · exact ih (fun x hx => h x (List.mem_cons_of_mem _ hx)) pr h2

theorem foldl_wf {α : Type} (f : Table → α → Table)
    (hf : ∀ t a, (∀ pr ∈ t, CounterWF pr.2) → ∀ pr ∈ f t a, CounterWF pr.2)
    (l : List α) (t : Table) (h : ∀ pr ∈ t, CounterWF pr.2) :
    ∀ pr ∈ l.foldl f t, CounterWF pr.2 := by
  induction l generalizing t with
  | nil => simpa using h
  | cons a rest ih => exact ih _ (hf t a h)

theorem trainItem_wf (order : Nat) (t : Table) (item : List Sym)
    (h : ∀ pr ∈ t, CounterWF pr.2) : ∀ pr ∈ trainItem order t item, CounterWF pr.2 :=
  foldl_wf _ (fun t2 _ h2 => tableIncr_wf t2 _ _ h2) _ t h

theorem foldl_trainItem_wf (order : Nat) (data : List (List Sym)) (t : Table)
    (h : ∀ pr ∈ t, CounterWF pr.2) :
    ∀ pr ∈ data.foldl (trainItem order) t, CounterWF pr.2 :=
  foldl_wf _ (fun t2 d h2 => trainItem_wf order t2 d h2) data t h

theorem initModel_wf (order : Nat) (dw : List (String × ℚ)) :
    ModelWF (initModel order dw) := by
  intro q hq; simp [initModel] at hq

theorem train_wf (m : MultiMarkovModel) (name : String) (data : List (List Sym))
    (h : ModelWF m) : ModelWF (train m name data) := by
  intro q hq
  simp only [train, modelsUpdate, List.mem_map] at hq
  obtain ⟨p, hp, hpq⟩ := hq
  have hp2 : ∀ pr ∈ p.2, CounterWF pr.2 := by
    unfold modelsEnsure at hp
    split at hp
    · exact h p hp
    · rcases List.mem_append.mp hp with h1 | h2
      · exact h p h1
      · simp only [List.mem_singleton] at h2
        subst h2; intro pr hpr; simp at hpr
  by_cases hname : p.1 == name
  · simp only [hname, if_true] at hpq
    subst hpq
    exact foldl_trainItem_wf _ _ _ hp2
  · simp only [hname, Bool.false_eq_true, if_false] at hpq
    subst hpq; exact hp2

/-! ### C9 — the order-2 "pika" scenario -/

/-- The order-2 model trained on the single item "pika". -/
def mmPika : MultiMarkovModel := train (initModel 2 []) "x" [["p", "i", "k", "a"]]

/-- Training "pika" at order 2 walks the padded sequence
`<START>, <START>, p, i, k, a, <END>`. -/
theorem mmPika_eq : mmPika = ⟨2, [("x",
    [(["<START>", "<START>"], [("p", 1)]), (["<START>", "p"], [("i", 1)]),
     (["p", "i"], [("k", 1)]), (["i", "k"], [("a", 1)]),
     (["k", "a"], [("<END>", 1)])])], []⟩ := by decide

theorem mmPika_active_start : activeModels mmPika [START_TOKEN, START_TOKEN] [("x", 1)] =
    [⟨[("p", 1)], 1, 1⟩] := by decide

theorem mmPika_active_pi : activeModels mmPika ["p", "i"] [("x", 1)] =
    [⟨[("k", 1)], 1, 1⟩] := by decide

theorem mmPika_active_ka : activeModels mmPika ["k", "a"] [("x", 1)] =
    [⟨[(END_TOKEN, 1)], 1, 1⟩] := by decide

/-- C9: after training an order-2 model on the single item "pika", the
fused distribution gives the sole successor `p` with probability 1 at
context `(<START>, <START>)`, `k` at `(p, i)`, and `<END>` at `(k, a)`. -/
theorem pika_order2_scenario :
    getFused mmPika [START_TOKEN, START_TOKEN] [("x", 1)] = (["p"], [1]) ∧
    getFused mmPika ["p", "i"] [("x", 1)] = (["k"], [1]) ∧
    getFused mmPika ["k", "a"] [("x", 1)] = ([END_TOKEN], [1]) := by
  refine ⟨?_, ?_, ?_⟩ <;>
    norm_num [getFused, mmPika_active_start, mmPika_active_pi, mmPika_active_ka,
      counterGet, counterTotal, List.dedup_cons_of_not_mem, List.dedup_nil]

/-! ### C3 — training accumulates -/

theorem modelsUpdate_hasKey (ms : List (String × Table)) (name : String)
    (f : Table → Table) (h : (ms.find? fun p => p.1 == name).isSome) :
    ((modelsUpdate ms name f).find? fun p => p.1 == name).isSome := by
  rw [List.find?_isSome] at h ⊢
  obtain ⟨x, hx, hx2⟩ := h
  refine ⟨_, List.mem_map_of_mem _ hx, ?_⟩
  simp only [beq_iff_eq] at hx2 ⊢
  simp [hx2]

theorem modelsEnsure_hasKey (ms : List (String × Table)) (name : String) :
    ((modelsEnsure ms name).find? fun p => p.1 == name).isSome := by
  unfold modelsEnsure
  split
  · assumption
  · rw [List.find?_isSome]
    exact ⟨(name, []), by simp, by simp⟩

theorem modelsEnsure_of_hasKey (ms : List (String × Table)) (name : String)
    (h : ((ms.find? fun p => p.1 == name).isSome)) : modelsEnsure ms name = ms := by
  simp [modelsEnsure, h]

theorem modelsUpdate_modelsUpdate (ms : List (String × Table)) (name : String)
    (f g : Table → Table) :
    modelsUpdate (modelsUpdate ms name f) name g =
      modelsUpdate ms name (fun t => g (f t)) := by
  simp only [modelsUpdate, List.map_map]
  congr 1
  funext p
  by_cases h : p.1 == name <;> simp [Function.comp, h]

/-- C3: training twice under one corpus name accumulates counts: it equals
a single training run on the concatenated item lists, as whole models. -/
theorem train_append_accumulates (m : MultiMarkovModel) (name : String)
    (A B : List (List Sym)) :
    train (train m name A) name B = train m name (A ++ B) := by
  unfold train
  simp only [MultiMarkovModel.mk.injEq, and_true, true_and]
  rw [modelsEnsure_of_hasKey]
  · rw [modelsUpdate_modelsUpdate]
    congr 1
    funext t
    exact (List.foldl_append _ _ _ _).symm
  · exact modelsUpdate_hasKey _ _ _ (modelsEnsure_hasKey m.models name)

/-! ### C10 — the weight check of `generate` -/

/-- C10: calling `generate` with no (empty) weights raises the
`ValueError` when `default_weights` is empty — independently of the random
stream, so before any sampling — and otherwise proceeds with
`default_weights`. -/
theorem generate_weight_fallback (m : MultiMarkovModel) (minL maxL : Nat)
    (draws : List Nat) (retry : Nat) :
    (m.default_weights = [] →
      generate m [] minL maxL draws retry =
        Except.error "Must provide weights or set default_weights during init.") ∧
    (m.default_weights ≠ [] →
      generate m [] minL maxL draws retry =
        generateRun m m.default_weights minL maxL draws retry) := by
  constructor
  · intro h; simp [generate, h]
  · intro h; simp [generate, List.isEmpty_iff, h]

theorem generate_weight_fallback_witness :
    ((initModel 2 []).default_weights = [] ∧
      generate (initModel 2 []) [] 4 12 [0, 1, 2] 5 =
        Except.error "Must provide weights or set default_weights during init.") ∧
    ((initModel 2 [("pokemon", 17/20)]).default_weights ≠ [] ∧
      generate (initModel 2 [("pokemon", 17/20)]) [] 4 12 [0, 1, 2] 5 =
        generateRun (initModel 2 [("pokemon", 17/20)]) [("pokemon", 17/20)] 4 12 [0, 1, 2] 5) :=
  ⟨⟨rfl, (generate_weight_fallback _ 4 12 [0, 1, 2] 5).1 rfl⟩,
   ⟨by decide, (generate_weight_fallback _ 4 12 [0, 1, 2] 5).2 (by decide)⟩⟩

/-! ### C2 — serialization round-trip -/

theorem decStrChars_enc (cs : List Char) (rest : List Char) :
    decStrChars (encStrChars cs ++ '"' :: rest) = some (cs, rest) := by
  induction cs with
  | nil => simp [encStrChars, decStrChars]
  | cons c cs ih =>
    simp only [encStrChars] at ih ⊢
    by_cases h : c = '"' ∨ c = '\\'
    · rcases h with h | h <;> subst h <;>
        simpa [escChar, decStrChars, List.append_assoc] using ih
    · push_neg at h
      simpa [escChar, h.1, h.2, decStrChars, List.append_assoc] using ih

theorem decLit_enc (s : String) (rest : List Char) :
    decLit (encLit s ++ rest) = some (s.data, rest) := by
  have h : encLit s ++ rest = '"' :: (encStrChars s.data ++ '"' :: rest) := by
    simp [encLit]
  rw [h, decLit, decStrChars_enc]

theorem string_mk_data (s : String) : String.mk s.data = s := rfl

theorem encLit_length (s : String) : 2 ≤ (encLit s).length := by
  simp [encLit]

theorem encCtxChars_length (st : Ctx) : st.length ≤ (encCtxChars st).length := by
  induction st with
  | nil => simp [encCtxChars]
  | cons s rest ih =>
    cases rest with
    | nil =>
      have := encLit_length s
      simp only [encCtxChars, List.length_cons, List.length_nil]
      omega
    | cons s2 t =>
      have := encLit_length s
      simp only [encCtxChars, List.length_append, List.length_cons] at ih ⊢
      omega

theorem decItems_enc (st : Ctx) (hne : st ≠ []) :
    ∀ fuel, st.length ≤ fuel → ∀ rest,
      decItems fuel (encCtxChars st ++ ']' :: rest) = some (st, rest) := by
  induction st with
  | nil => exact absurd rfl hne
  | cons s t ih =>
    intro fuel hfuel rest
    match fuel, hfuel with
    | fuel + 1, hfuel =>
      cases t with
      | nil =>
        simp only [encCtxChars, decItems, decLit_enc, string_mk_data]
      | cons s2 t2 =>
        have harr : encCtxChars (s :: s2 :: t2) ++ ']' :: rest =
            encLit s ++ (',' :: ' ' :: (encCtxChars (s2 :: t2) ++ ']' :: rest)) := by
          simp [encCtxChars]
        rw [harr]
        simp only [decItems, decLit_enc, string_mk_data]
        rw [ih (by simp) fuel (by simpa using Nat.le_of_succ_le_succ hfuel) rest]

theorem encCtxChars_ne_bracket (st : Ctx) (hne : st ≠ []) :
    encCtxChars st ++ [']'] ≠ [']'] := by
  intro h
  have h2 := congrArg List.length h
  have h3 := encCtxChars_length st
  simp only [List.length_append, List.length_cons, List.length_nil] at h2
  have h4 : st.length = 0 := by omega
  exact hne (List.eq_nil_of_length_eq_zero h4)

theorem jsonDecodeCtx_enc (st : Ctx) : jsonDecodeCtx (jsonEncodeCtx st) = some st := by
  cases st with
  | nil => decide
  | cons s t =>
    have hfuel : (s :: t : Ctx).length ≤ (encCtxChars (s :: t) ++ [']']).length + 1 := by
      have h := encCtxChars_length (s :: t)
      simp only [List.length_append, List.length_cons, List.length_nil] at h ⊢
      omega
    calc jsonDecodeCtx (jsonEncodeCtx (s :: t))
        = (if (encCtxChars (s :: t) ++ [']']) = [']'] then some [] else
            match decItems ((encCtxChars (s :: t) ++ [']']).length + 1)
                (encCtxChars (s :: t) ++ [']']) with
            | some p => if p.2.isEmpty then some p.1 else none
            | none => none) := rfl
      _ = some (s :: t) := by
          rw [if_neg (encCtxChars_ne_bracket (s :: t) (by simp))]
          rw [show encCtxChars (s :: t) ++ [']'] = encCtxChars (s :: t) ++ ']' :: [] from rfl,
            decItems_enc (s :: t) (by simp) _ hfuel []]
          simp

/-- C2: `load_from_json` after `export_to_json` restores the model exactly
(order, per-corpus tables with their context keys and counters, and
`default_weights`), hence `_get_fused_probabilities` agrees on every
context and every weight mapping. -/
theorem export_load_roundtrip (m : MultiMarkovModel) :
    load_from_json (export_to_json m) = m ∧
    ∀ state weights,
      getFused (load_from_json (export_to_json m)) state weights =
        getFused m state weights := by
  have h : load_from_json (export_to_json m) = m := by
    unfold load_from_json export_to_json
    cases m with
    | mk order ms dw =>
      simp only [List.map_map, MultiMarkovModel.mk.injEq, true_and, and_true]
      have hfun : ((fun p : String × List (String × Counter) =>
            (p.1, List.map (fun q => ((jsonDecodeCtx q.1).getD [], q.2)) p.2)) ∘
          fun p : String × Table =>
            (p.1, List.map (fun q : Ctx × Counter => (jsonEncodeCtx q.1, q.2)) p.2)) = id := by
        funext p
        have hq : ((fun q : String × Counter => ((jsonDecodeCtx q.1).getD [], q.2)) ∘
            fun q : Ctx × Counter => (jsonEncodeCtx q.1, q.2)) = id := by
          funext q
          simp [Function.comp, jsonDecodeCtx_enc]
        simp [hq]
      rw [hfun, List.map_id]
  exact ⟨h, fun state weights => by rw [h]⟩

/-! ### C1 — fused probabilities sum to one -/

theorem sum_map_pos {α : Type} (l : List α) (f : α → ℚ) (hne : l ≠ [])
    (hpos : ∀ x ∈ l, 0 < f x) : 0 < (l.map f).sum := by
  cases l with
  | nil => exact absurd rfl hne
  | cons a t =>
    have h1 : 0 < f a := hpos a (List.mem_cons_self _ _)
    have h2 : 0 ≤ (t.map f).sum :=
      List.sum_nonneg fun x hx => by
        obtain ⟨y, hy, rfl⟩ := List.mem_map.mp hx
        exact le_of_lt (hpos y (List.mem_cons_of_mem _ hy))
    simpa using add_pos_of_pos_of_nonneg h1 h2

theorem tableGet_wf (m : MultiMarkovModel) (hwf : ModelWF m) (q : String × Table)
    (hq : q ∈ m.models) (state : Ctx) : CounterWF (tableGet q.2 state) := by
  unfold tableGet
  cases hfind : q.2.find? fun p => p.1 == state with
  | none => simp [CounterWF]
  | some pr => exact hwf q hq pr (List.mem_of_find?_eq_some hfind)

theorem activeModels_mem_spec (m : MultiMarkovModel) (state : Ctx)
    (weights : List (String × ℚ)) (a : ActiveModel)
    (ha : a ∈ activeModels m state weights) :
    0 < a.weight ∧ a.total = counterTotal a.counter ∧ 0 < a.total ∧
      ∃ q ∈ m.models, a.counter = tableGet q.2 state := by
  rw [activeModels, List.mem_filterMap] at ha
  obtain ⟨p, hp, hfp⟩ := ha
  dsimp only at hfp
  cases hfind : m.models.find? fun q => q.1 == p.1 with
  | none => rw [hfind] at hfp; simp at hfp
  | some q =>
    rw [hfind] at hfp
    dsimp only at hfp
    split_ifs at hfp with h1 h2
    cases Option.some.inj hfp
    exact ⟨h1, rfl, h2, q, List.mem_of_find?_eq_some hfind, rfl⟩

theorem counter_sum_finset (c : Counter) (hwf : CounterWF c) (S : Finset Sym)
    (hsub : ∀ k ∈ c.map Prod.fst, k ∈ S) :
    (S.sum fun ch => (counterGet c ch : ℚ)) = (counterTotal c : ℚ) := by
  induction c generalizing S with
  | nil => simp [counterGet, counterTotal]
  | cons kv c ih =>
    obtain ⟨k, v⟩ := kv
    have hk : k ∈ S := hsub k (by simp)
    have hwf2 := List.nodup_cons.mp (show (k :: c.map Prod.fst).Nodup from hwf)
    rw [← Finset.add_sum_erase S _ hk]
    have hstep : ∀ ch ∈ S.erase k,
        (counterGet ((k, v) :: c) ch : ℚ) = (counterGet c ch : ℚ) := by
      intro ch hch
      have hne : ¬k = ch := fun he => (Finset.mem_erase.mp hch).1 he.symm
      simp [counterGet, hne]
    rw [Finset.sum_congr rfl hstep]
    rw [ih hwf2.2 (S.erase k) (fun k2 hk2 => Finset.mem_erase.mpr
      ⟨fun he => hwf2.1 (he ▸ hk2), hsub k2 (List.mem_cons_of_mem _ hk2)⟩)]
    simp [counterGet, counterTotal]

theorem finset_list_swap {α β : Type} (l : List α) (S : Finset β) (f : α → β → ℚ) :
    (S.sum fun b => (l.map fun a => f a b).sum) =
      (l.map fun a => S.sum fun b => f a b).sum := by
  induction l with
  | nil => simp
  | cons a t ih =>
    simp only [List.map_cons, List.sum_cons, Finset.sum_add_distrib, ih]

theorem sum_map_div (l : List ActiveModel) (f : ActiveModel → ℚ) (c : ℚ) :
    (l.map fun a => f a / c).sum = (l.map f).sum / c := by
  simp only [div_eq_mul_inv, List.sum_map_mul_right]

/-- C1: on a well-formed (trained) model, `_get_fused_probabilities` with a
nonempty weight mapping returns either the empty result or a probability
list summing to 1 exactly — in particular within the spec's 1e-9. -/
theorem fused_probabilities_sum (m : MultiMarkovModel) (state : Ctx)
    (weights : List (String × ℚ)) (hwf : ModelWF m) (_hne : weights ≠ []) :
    getFused m state weights = ([], []) ∨
      |(getFused m state weights).2.sum - 1| ≤ 1 / 10 ^ 9 := by
  by_cases hiso : (activeModels m state weights).isEmpty
  · left; simp [getFused, hiso]
  · right
    have hsum : (getFused m state weights).2.sum = 1 := by
      have hactne : activeModels m state weights ≠ [] := by
        simpa [List.isEmpty_iff] using hiso
      set active := activeModels m state weights with hactive
      set W : ℚ := (active.map ActiveModel.weight).sum with hWdef
      have hW : 0 < W := sum_map_pos active ActiveModel.weight hactne
        (fun a ha => (activeModels_mem_spec m state weights a ha).1)
      set chars := (active.flatMap fun a => a.counter.map Prod.fst).dedup with hchars
      have h2 : (getFused m state weights).2 = chars.map fun ch =>
          (active.map fun a =>
            (a.weight / W) * ((counterGet a.counter ch : ℚ) / (a.total : ℚ))).sum := by
        simp only [getFused, ← hactive, hiso, Bool.false_eq_true, if_false,
          ← hWdef, ← hchars]
      rw [h2]
      rw [← List.sum_toFinset _ (List.nodup_dedup _)]
      rw [finset_list_swap]
      have hpoint : ∀ a ∈ active,
          (chars.toFinset.sum fun ch =>
            (a.weight / W) * ((counterGet a.counter ch : ℚ) / (a.total : ℚ))) =
          a.weight / W := by
        intro a ha
        obtain ⟨hwpos, htot, htpos, q, hq, hcounter⟩ :=
          activeModels_mem_spec m state weights a ha
        rw [← Finset.mul_sum, ← Finset.sum_div]
        rw [counter_sum_finset a.counter (hcounter ▸ tableGet_wf m hwf q hq state)
          chars.toFinset ?_]
        · rw [← htot, div_self (by exact_mod_cast htpos.ne')]
          ring
        · intro k hkmem
          rw [List.mem_toFinset, hchars, List.mem_dedup]
          exact List.mem_flatMap.mpr ⟨a, ha, hkmem⟩
      rw [List.map_congr_left hpoint, sum_map_div, ← hWdef, div_self hW.ne']
    rw [hsum]
    norm_num

theorem fused_probabilities_sum_witness :
    ModelWF mmPika ∧ ([("x", (1 : ℚ))] : List (String × ℚ)) ≠ [] ∧
      (getFused mmPika ["p", "i"] [("x", 1)] = ([], []) ∨
        |(getFused mmPika ["p", "i"] [("x", 1)]).2.sum - 1| ≤ 1 / 10 ^ 9) :=
  ⟨by decide, by decide, fused_probabilities_sum mmPika ["p", "i"] [("x", 1)]
    (by decide) (by decide)⟩

end PokeMarkov

namespace PokeBeam

/-!
## The batched beam-search decoder (`inference.py`)

`decode_sequence_beam_batched(input_text, task_token, beam_width)` over the
trained Keras model.  The scoring model is external (the spec treats it as
an opaque oracle producing per-step next-token distributions), so the
composition of `model_step` with the `preds[:, curr_len - 1, :]` slice and
`tf.nn.log_softmax` is modelled as one opaque function
`oracle enc dec_input curr_len` returning a row of log-probabilities (as
rationals) per hypothesis.  Scores are `ℚ`; `-1e9` is the killed-beam
sentinel and `-1e8` the early-exit threshold, as in the source.
-/

/-- `MAX_LEN = 40` (the fixed context length). -/
def MAX_LEN : Nat := 40

/-- The decoder's environment: the reserved token ids, the vocabulary
mappings (`vocab.get(c, 0)` and `inv_vocab.get(idx, "")`, external files)
and the scoring oracle. -/
structure DecodeEnv where
  START_TOKEN : Nat
  STOP_TOKEN : Nat
  PAD_TOKEN : Nat
  vocabLookup : Char → Nat
  inv_vocab : Nat → String
  oracle : List Nat → List (List Nat) → Nat → List (List ℚ)

/-- First maximum of an indexed list under a strict comparison `gt`:
a later element replaces the current best only when strictly greater, so
the lowest index wins ties (the `np.argmax` / stable-top-k rule). -/
def argmaxBy {α : Type} (gt : α → α → Bool) : List (Nat × α) → Option (Nat × α)
  | [] => none
  | p :: ps =>
    match argmaxBy gt ps with
    | none => some p
    | some q => if gt q.2 p.2 then some q else some p

/-- Strict `>` on scores. -/
def qGT (a b : ℚ) : Bool := decide (b < a)

/-- `tf.math.top_k` selection core: repeatedly extract the first maximum.
Returns (flattened index, value) pairs, values descending, ties by lower
index first. -/
def topKAux : Nat → List (Nat × ℚ) → List (Nat × ℚ)
  | 0, _ => []
  | k + 1, ps =>
    match argmaxBy qGT ps with
    | none => []
    | some q => q :: topKAux k (ps.erase q)

/-- `tf.math.top_k(xs, k)` as (index, value) pairs. -/
def topK (xs : List ℚ) (k : Nat) : List (Nat × ℚ) := topKAux k xs.enum

/-- The beam state: active sequences with their scores (parallel lists of
length `beam_width`), and the finished collection (parallel lists). -/
structure BeamState where
  sequences : List (List Nat)
  scores : List ℚ
  finishedSeqs : List (List Nat)
  finishedScores : List ℚ

/-- `scores = tf.constant([0.0] + [-1e9] * (beam_width - 1))`. -/
def initScores (bw : Nat) : List ℚ :=
  (0 : ℚ) :: List.replicate (bw - 1) (-(10 ^ 9 : ℚ))

/-- `sequences = tf.constant([[START_TOKEN]] * beam_width)`. -/
def initSeqs (env : DecodeEnv) (bw : Nat) : List (List Nat) :=
  List.replicate bw [env.START_TOKEN]

/-- The state entering the autoregressive loop. -/
def initBeam (env : DecodeEnv) (bw : Nat) : BeamState :=
  ⟨initSeqs env bw, initScores bw, [], []⟩

/-- `curr_len = sequences.shape[1]` (all rows share one length). -/
def currLen (st : BeamState) : Nat := (st.sequences.headD []).length

/-- Right-pad one decoder row to width `w` with PAD. -/
def padSeq (P w : Nat) (s : List Nat) : List Nat :=
  s ++ List.replicate (w - s.length) P

/-- The decoder-input batch, padded to `MAX_LEN - 1`. -/
def stepDecInput (env : DecodeEnv) (st : BeamState) : List (List Nat) :=
  st.sequences.map (padSeq env.PAD_TOKEN (MAX_LEN - 1))

/-- `log_probs = tf.nn.log_softmax(model_step(...)[:, curr_len - 1, :])`:
one row of log-probabilities per hypothesis, from the opaque oracle. -/
def stepLP (env : DecodeEnv) (enc : List Nat) (st : BeamState) : List (List ℚ) :=
  env.oracle enc (stepDecInput env st) (currLen st)

/-- `vocab_size = log_probs.shape[-1]`. -/
def stepV (env : DecodeEnv) (enc : List Nat) (st : BeamState) : Nat :=
  ((stepLP env enc st).headD []).length

/-- `flat_scores = tf.reshape(scores[:, None] + log_probs, [-1])`. -/
def stepFlat (env : DecodeEnv) (enc : List Nat) (st : BeamState) : List ℚ :=
  (st.scores.zip (stepLP env enc st)).flatMap fun p => p.2.map fun q => p.1 + q

/-- The global top-`beam_width` (flattened index, candidate score) pairs. -/
def stepSel (env : DecodeEnv) (enc : List Nat) (bw : Nat) (st : BeamState) :
    List (Nat × ℚ) :=
  topK (stepFlat env enc st) bw

/-- One pass of the autoregressive loop: expand, select top-k, move STOP
picks (parent sequence, without STOP) to the finished lists replacing their
slot by a killed `-1e9` placeholder padded with PAD, append the token
otherwise. -/
def beamStep (env : DecodeEnv) (enc : List Nat) (bw : Nat) (st : BeamState) :
    BeamState :=
  let V := stepV env enc st
  let sel := stepSel env enc bw st
  let next := sel.map fun p =>
    if p.1 % V = env.STOP_TOKEN then
      (st.sequences.getD (p.1 / V) [] ++ [env.PAD_TOKEN], (-(10 ^ 9) : ℚ))
    else
      (st.sequences.getD (p.1 / V) [] ++ [p.1 % V], p.2)
  let fins := sel.filterMap fun p =>
    if p.1 % V = env.STOP_TOKEN then
      some (st.sequences.getD (p.1 / V) [], p.2)
    else none
  ⟨next.map Prod.fst, next.map Prod.snd,
   st.finishedSeqs ++ fins.map Prod.fst, st.finishedScores ++ fins.map Prod.snd⟩

/-- `for i in range(MAX_LEN - 1)` with the early exit
`tf.reduce_max(scores) < -1e8`. -/
def decodeLoop (env : DecodeEnv) (enc : List Nat) (bw : Nat) :
    Nat → BeamState → BeamState
  | 0, st => st
  | n + 1, st =>
    let st2 := beamStep env enc bw st
    if st2.scores.max?.getD 0 < -(10 ^ 8 : ℚ) then st2
    else decodeLoop env enc bw n st2

/-- The computable comparison deciding
`s2 / l2 ^ 0.7 < s1 / l1 ^ 0.7` over the reals (`0.7 = 7/10`, so the
comparison of the nonnegative products `|s| · l ^ 0.7` is equivalent to
that of their 10th powers). -/
def normGT (s1 : ℚ) (l1 : Nat) (s2 : ℚ) (l2 : Nat) : Bool :=
  if 0 ≤ s1 then
    (if 0 ≤ s2 then decide (s2 ^ 10 * (l1 : ℚ) ^ 7 < s1 ^ 10 * (l2 : ℚ) ^ 7)
     else true)
  else
    (if 0 ≤ s2 then false
     else decide (s1 ^ 10 * (l2 : ℚ) ^ 7 < s2 ^ 10 * (l1 : ℚ) ^ 7))

/-- `normGT` on (score, length) pairs. -/
def normGTp (a b : ℚ × Nat) : Bool := normGT a.1 a.2 b.1 b.2

/-- `np.argmax`: index of the first maximum (0 on an empty list). -/
def argmaxIdxBy {α : Type} (gt : α → α → Bool) (l : List α) : Nat :=
  match argmaxBy gt l.enum with
  | some p => p.1
  | none => 0

/-- Result selection: the finished sequence maximizing
`score / len(seq) ** 0.7` when any hypothesis finished, otherwise the
best-scoring active hypothesis as-is. -/
def decodeFinal (_env : DecodeEnv) (st : BeamState) : List Nat :=
  if 0 < st.finishedScores.length then
    st.finishedSeqs.getD
      (argmaxIdxBy normGTp (st.finishedScores.zip (st.finishedSeqs.map List.length))) []
  else
    st.sequences.getD (argmaxIdxBy qGT st.scores) []

/-- Decoding ids to text: skip START, stop at (and exclude) STOP, look the
rest up in the inverted vocabulary. -/
def detokList (env : DecodeEnv) : List Nat → List String
  | [] => []
  | idx :: rest =>
    if idx = env.START_TOKEN then detokList env rest
    else if idx = env.STOP_TOKEN then []
    else env.inv_vocab idx :: detokList env rest

/-- `"".join(decoded_chars)`. -/
def detok (env : DecodeEnv) (seq : List Nat) : String :=
  String.join (detokList env seq)

/-- `full_text = task_token + input_text.lower()`, encoded, truncated to
`MAX_LEN` and right-padded with PAD. -/
def encodeInput (env : DecodeEnv) (input_text task_token : String) : List Nat :=
  let full_text := task_token ++ input_text.toLower
  let enc0 := (full_text.data.map env.vocabLookup).take MAX_LEN
  enc0 ++ List.replicate (MAX_LEN - enc0.length) env.PAD_TOKEN

/-- `decode_sequence_beam_batched(input_text, task_token, beam_width)`. -/
def decode (env : DecodeEnv) (input_text task_token : String) (bw : Nat) : String :=
  detok env (decodeFinal env
    (decodeLoop env (encodeInput env input_text task_token) bw (MAX_LEN - 1)
      (initBeam env bw)))

/-! ### Selection lemmas (argmax and stable top-k) -/

theorem argmaxBy_eq_none {α : Type} (gt : α → α → Bool) (l : List (Nat × α)) :
    argmaxBy gt l = none ↔ l = [] := by
  cases l with
  | nil => simp [argmaxBy]
  | cons p ps =>
    simp only [argmaxBy]
    cases argmaxBy gt ps with
    | none => simp
    | some q => by_cases h : gt q.2 p.2 <;> simp [h]

theorem argmaxBy_mem {α : Type} (gt : α → α → Bool) (l : List (Nat × α))
    (q : Nat × α) (h : argmaxBy gt l = some q) : q ∈ l := by
  induction l generalizing q with
  | nil => simp [argmaxBy] at h
  | cons p ps ih =>
    simp only [argmaxBy] at h
    cases hrec : argmaxBy gt ps with
    | none => rw [hrec] at h; cases h; exact List.mem_cons_self _ _
    | some r =>
      rw [hrec] at h
      dsimp only at h
      by_cases hgt : gt r.2 p.2
      · rw [if_pos hgt] at h
        cases h
        exact List.mem_cons_of_mem _ (ih _ hrec)
      · rw [if_neg hgt] at h
        cases h
        exact List.mem_cons_self _ _

theorem argmaxBy_max {α : Type} (gt : α → α → Bool) (l : List (Nat × α))
    (hirr : ∀ p ∈ l, gt p.2 p.2 = false)
    (hasym : ∀ p1 ∈ l, ∀ p2 ∈ l, gt p1.2 p2.2 = true → gt p2.2 p1.2 = false)
    (hnt : ∀ p1 ∈ l, ∀ p2 ∈ l, ∀ p3 ∈ l,
      gt p1.2 p2.2 = false → gt p2.2 p3.2 = false → gt p1.2 p3.2 = false)
    (q : Nat × α) (h : argmaxBy gt l = some q) : ∀ p ∈ l, gt p.2 q.2 = false := by
  induction l generalizing q with
  | nil => simp [argmaxBy] at h
  | cons a t ih =>
    simp only [argmaxBy] at h
    cases hrec : argmaxBy gt t with
    | none =>
      rw [hrec] at h
      dsimp only at h
      cases h
      have ht : t = [] := (argmaxBy_eq_none gt t).mp hrec
      subst ht
      intro p hp
      rw [List.mem_singleton] at hp
      subst hp
      exact hirr _ (List.mem_cons_self _ _)
    | some r =>
      rw [hrec] at h
      dsimp only at h
      have hrt : r ∈ t := argmaxBy_mem gt t r hrec
      have ihr := ih
        (fun p hp => hirr p (List.mem_cons_of_mem _ hp))
        (fun p1 h1 p2 h2 => hasym p1 (List.mem_cons_of_mem _ h1) p2 (List.mem_cons_of_mem _ h2))
        (fun p1 h1 p2 h2 p3 h3 => hnt p1 (List.mem_cons_of_mem _ h1) p2
          (List.mem_cons_of_mem _ h2) p3 (List.mem_cons_of_mem _ h3))
        r hrec
      by_cases hgt : gt r.2 a.2
      · rw [if_pos hgt, Option.some.injEq] at h
        subst h
        intro p hp
        rcases List.mem_cons.mp hp with hp | hp
        · subst hp
          exact hasym r (List.mem_cons_of_mem _ hrt) p (List.mem_cons_self _ _) hgt
        · exact ihr p hp
      · rw [if_neg hgt, Option.some.injEq] at h
        subst h
        intro p hp
        rcases List.mem_cons.mp hp with hp | hp
        · subst hp
          exact hirr _ (List.mem_cons_self _ _)
        · exact hnt p (List.mem_cons_of_mem _ hp) r (List.mem_cons_of_mem _ hrt)
            a (List.mem_cons_self _ _) (ihr p hp) (Bool.of_not_eq_true hgt)

theorem qGT_irrefl (a : ℚ) : qGT a a = false := by simp [qGT]

theorem qGT_asym (a b : ℚ) (h : qGT a b = true) : qGT b a = false := by
  simp only [qGT, decide_eq_true_eq] at h
  simp [qGT, le_of_lt h]

theorem qGT_negtrans (a b c : ℚ) (h1 : qGT a b = false) (h2 : qGT b c = false) :
    qGT a c = false := by
  simp only [qGT, decide_eq_false_iff_not, not_lt] at h1 h2
  simp [qGT, not_lt, le_trans h1 h2]

theorem argmaxBy_qGT_max (l : List (Nat × ℚ)) (q : Nat × ℚ)
    (h : argmaxBy qGT l = some q) : ∀ p ∈ l, p.2 ≤ q.2 := by
  have h2 := argmaxBy_max qGT l (fun p _ => qGT_irrefl p.2)
    (fun p1 _ p2 _ => qGT_asym p1.2 p2.2)
    (fun p1 _ p2 _ p3 _ => qGT_negtrans p1.2 p2.2 p3.2) q h
  intro p hp
  have := h2 p hp
  simpa [qGT, not_lt] using this

/-- Among pairs of equal value, `argmaxBy qGT` returns the one of least
index (on an index-sorted list): the stable tie-break. -/
theorem argmaxBy_qGT_first (l : List (Nat × ℚ))
    (hsort : l.Pairwise fun a b => a.1 < b.1) (q : Nat × ℚ)
    (h : argmaxBy qGT l = some q) : ∀ p ∈ l, p.2 = q.2 → q.1 ≤ p.1 := by
  induction l generalizing q with
  | nil => simp [argmaxBy] at h
  | cons a t ih =>
    simp only [argmaxBy] at h
    cases hrec : argmaxBy qGT t with
    | none =>
      rw [hrec] at h
      dsimp only at h
      cases h
      have ht : t = [] := (argmaxBy_eq_none qGT t).mp hrec
      subst ht
      intro p hp hv
      rw [List.mem_singleton] at hp
      subst hp
      exact le_refl _
    | some r =>
      rw [hrec] at h
      dsimp only at h
      by_cases hgt : qGT r.2 a.2
      · rw [if_pos hgt, Option.some.injEq] at h
        subst h
        intro p hp hv
        rcases List.mem_cons.mp hp with hp | hp
        · subst hp
          simp only [qGT, decide_eq_true_eq] at hgt
          rw [hv] at hgt
          exact absurd hgt (lt_irrefl _)
        · exact ih (List.Pairwise.of_cons hsort) r hrec p hp hv
      · rw [if_neg hgt, Option.some.injEq] at h
        subst h
        intro p hp hv
        rcases List.mem_cons.mp hp with hp | hp
        · subst hp
          exact le_refl _
        · exact le_of_lt ((List.pairwise_cons.mp hsort).1 p hp)

theorem enumFrom_pairwise {α : Type} (l : List α) (n : Nat) :
    (l.enumFrom n).Pairwise fun a b => a.1 < b.1 := by
  induction l generalizing n with
  | nil => simp
  | cons a t ih =>
    rw [List.enumFrom_cons, List.pairwise_cons]
    refine ⟨fun p hp => ?_, ih (n + 1)⟩
    have := (List.mk_mem_enumFrom_iff_le_and_getElem?_sub.mp hp).1
    omega

theorem enum_pairwise {α : Type} (l : List α) :
    l.enum.Pairwise fun a b => a.1 < b.1 := enumFrom_pairwise l 0

theorem enum_nodup {α : Type} (l : List α) : l.enum.Nodup :=
  (enum_pairwise l).imp fun h => by
    intro he
    rw [he] at h
    exact lt_irrefl _ h

theorem topKAux_subset (k : Nat) (ps : List (Nat × ℚ)) :
    ∀ p ∈ topKAux k ps, p ∈ ps := by
  induction k generalizing ps with
  | zero => simp [topKAux]
  | succ k ih =>
    intro p hp
    simp only [topKAux] at hp
    cases hrec : argmaxBy qGT ps with
    | none => rw [hrec] at hp; simp at hp
    | some q =>
      rw [hrec] at hp
      dsimp only at hp
      rcases List.mem_cons.mp hp with hp | hp
      · rw [hp]; exact argmaxBy_mem qGT ps q hrec
      · exact List.erase_subset q ps (ih (ps.erase q) p hp)

theorem topK_mem_getElem (xs : List ℚ) (k i : Nat) (v : ℚ)
    (h : (i, v) ∈ topK xs k) : xs[i]? = some v := by
  have := topKAux_subset k xs.enum (i, v) h
  exact List.mk_mem_enum_iff_getElem?.mp this

/-- C8 tie-break core: if a (index, value) pair is selected and the same
value occurs at a lower flattened index, that lower index is selected as
well. -/
theorem topKAux_tie (k : Nat) (ps : List (Nat × ℚ))
    (hsort : ps.Pairwise fun a b => a.1 < b.1) (i j : Nat) (v : ℚ)
    (hi : (i, v) ∈ topKAux k ps) (hj : (j, v) ∈ ps) (hlt : j < i) :
    (j, v) ∈ topKAux k ps := by
  induction k generalizing ps with
  | zero => simp [topKAux] at hi
  | succ k ih =>
    simp only [topKAux] at hi ⊢
    cases hrec : argmaxBy qGT ps with
    | none => rw [hrec] at hi; simp at hi
    | some q =>
      rw [hrec] at hi
      dsimp only at hi
      dsimp only
      rcases List.mem_cons.mp hi with hq | htail
      · exfalso
        have hfirst := argmaxBy_qGT_first ps hsort q hrec (j, v) hj (by rw [← hq])
        rw [← hq] at hfirst
        omega
      · by_cases hjq : (j, v) = q
        · rw [hjq]; exact List.mem_cons_self _ _
        · have hnd : ps.Nodup := hsort.imp fun hab he => absurd (he ▸ hab) (lt_irrefl _)
          have hj2 : (j, v) ∈ ps.erase q := (hnd.mem_erase_iff).mpr ⟨hjq, hj⟩
          exact List.mem_cons_of_mem _
            (ih (ps.erase q) (hsort.sublist (List.erase_sublist _ _)) htail hj2)

/-! ### C5 — beam initialization -/

/-- C5: for `beam_width ≥ 1` the initial beam holds exactly `beam_width`
hypotheses, all equal to `[START]`; exactly one initial score is 0 and the
other `beam_width - 1` are the `-1e9` sentinel. -/
theorem beam_init (env : DecodeEnv) (bw : Nat) (hbw : 1 ≤ bw) :
    (initSeqs env bw).length = bw ∧
    (∀ s ∈ initSeqs env bw, s = [env.START_TOKEN]) ∧
    (initScores bw).length = bw ∧
    (initScores bw).count 0 = 1 ∧
    (initScores bw).count (-(10 ^ 9 : ℚ)) = bw - 1 := by
  have hne : (0 : ℚ) ≠ -(10 ^ 9 : ℚ) := by norm_num
  refine ⟨by simp [initSeqs], fun s hs => List.eq_of_mem_replicate hs, ?_, ?_, ?_⟩
  · simp [initScores]
    omega
  · simp [initScores, List.count_cons, List.count_replicate, hne.symm]
  · simp [initScores, List.count_cons, List.count_replicate, hne.symm]

/-- A throwaway concrete environment for witnesses. -/
def sampleEnv : DecodeEnv :=
  ⟨1, 2, 0, fun _ => 0, fun _ => "", fun _ dec _ => dec.map fun _ => [0, 0, 0]⟩

theorem beam_init_witness :
    1 ≤ 3 ∧
    ((initSeqs sampleEnv 3).length = 3 ∧
      (∀ s ∈ initSeqs sampleEnv 3, s = [sampleEnv.START_TOKEN]) ∧
      (initScores 3).length = 3 ∧
      (initScores 3).count 0 = 1 ∧
      (initScores 3).count (-(10 ^ 9 : ℚ)) = 3 - 1) :=
  ⟨by norm_num, beam_init sampleEnv 3 (by norm_num)⟩

/-! ### C8 — determinism and stable tie-breaking -/

/-- C8: decoding is a pure function of the environment (oracle), input,
task marker and beam width — two runs agree — and top-k candidate
selection breaks score ties by encounter order: whenever a pair is
selected, the same score at a lower flattened index is selected too. -/
theorem beam_decode_deterministic :
    (∀ (env : DecodeEnv) (input task : String) (bw : Nat),
      decode env input task bw = decode env input task bw) ∧
    (∀ (xs : List ℚ) (k i j : Nat) (v : ℚ), (i, v) ∈ topK xs k →
      xs[j]? = some v → j < i → (j, v) ∈ topK xs k) := by
  refine ⟨fun env input task bw => rfl, fun xs k i j v hi hj hlt => ?_⟩
  exact topKAux_tie k xs.enum (enum_pairwise xs) i j v hi
    (List.mk_mem_enum_iff_getElem?.mpr hj) hlt

theorem beam_decode_deterministic_witness :
    ((2 : Nat), (1 : ℚ)) ∈ topK [1, 0, 1] 2 ∧ ([1, 0, 1] : List ℚ)[0]? = some 1 ∧
      (0 : Nat) < 2 ∧ ((0 : Nat), (1 : ℚ)) ∈ topK [1, 0, 1] 2 :=
  ⟨by decide, by decide, by decide,
    beam_decode_deterministic.2 [1, 0, 1] 2 2 0 1 (by decide) (by decide) (by decide)⟩

/-! ### C6 — STOP handling in a decoding step -/

theorem flatScores_length (l : List (ℚ × List ℚ)) (V : Nat)
    (h : ∀ p ∈ l, p.2.length = V) :
    (l.flatMap fun p => p.2.map fun q => p.1 + q).length = l.length * V := by
  induction l with
  | nil => simp
  | cons a t ih =>
    simp only [List.flatMap_cons, List.length_append, List.length_map,
      h a (List.mem_cons_self _ _), ih fun p hp => h p (List.mem_cons_of_mem _ hp),
      List.length_cons]
    ring

theorem flatScores_getElem (l : List (ℚ × List ℚ)) (V : Nat)
    (h : ∀ p ∈ l, p.2.length = V) (b t : Nat) (hb : b < l.length) (ht : t < V) :
    (l.flatMap fun p => p.2.map fun q => p.1 + q)[b * V + t]? =
      some ((l.getD b (0, [])).1 + (l.getD b (0, [])).2.getD t 0) := by
  induction l generalizing b with
  | nil => simp at hb
  | cons a tl ih =>
    have ha : a.2.length = V := h a (List.mem_cons_self _ _)
    have ht2 : t < a.2.length := by omega
    cases b with
    | zero =>
      simp only [List.flatMap_cons, Nat.zero_mul, Nat.zero_add, List.getD_cons_zero]
      rw [List.getElem?_append, if_pos (by simpa [ha] using ht), List.getElem?_map,
        List.getElem?_eq_getElem ht2]
      simp [List.getD_eq_getElem?_getD, List.getElem?_eq_getElem ht2]
    | succ b =>
      simp only [List.flatMap_cons, List.getD_cons_succ]
      rw [show (b + 1) * V + t = (a.2.map fun q => a.1 + q).length + (b * V + t) by
        simp [ha]; ring]
      rw [List.getElem?_append_right (Nat.le_add_right _ _), Nat.add_sub_cancel_left]
      exact ih (fun p hp => h p (List.mem_cons_of_mem _ hp)) b
        (by simpa using Nat.lt_of_succ_lt_succ (by simpa using hb))

theorem enumFrom_countP (c : ℚ) (l : List ℚ) (n : Nat) :
    (l.enumFrom n).countP (fun pr => decide (c < pr.2)) =
      l.countP fun q => decide (c < q) := by
  induction l generalizing n with
  | nil => simp
  | cons a t ih => simp [List.enumFrom_cons, List.countP_cons, ih]

theorem enum_countP (c : ℚ) (l : List ℚ) :
    l.enum.countP (fun pr => decide (c < pr.2)) = l.countP fun q => decide (c < q) :=
  enumFrom_countP c l 0

theorem countP_erase_of_mem {α : Type} [BEq α] [LawfulBEq α] (pr : α → Bool)
    (l : List α) (a : α) (h : a ∈ l) :
    l.countP pr = (l.erase a).countP pr + (if pr a then 1 else 0) := by
  induction l with
  | nil => simp at h
  | cons b t ih =>
    by_cases hba : (b == a) = true
    · have hb : b = a := eq_of_beq hba
      subst hb
      simp [List.erase_cons, List.countP_cons]
    · have hne : ¬a = b := fun he => hba (by simp [he])
      rcases List.mem_cons.mp h with h1 | h1
      · exact absurd h1 hne
      · rw [List.erase_cons, if_neg hba, List.countP_cons, List.countP_cons, ih h1]
        omega

theorem topKAux_countP (c : ℚ) (k : Nat) :
    ∀ (ps : List (Nat × ℚ)), k ≤ ps.countP (fun pr => decide (c < pr.2)) →
      ∀ p ∈ topKAux k ps, c < p.2 := by
  induction k with
  | zero => intro ps h p hp; simp [topKAux] at hp
  | succ k ih =>
    intro ps h p hp
    simp only [topKAux] at hp
    cases hrec : argmaxBy qGT ps with
    | none => rw [hrec] at hp; simp at hp
    | some q =>
      rw [hrec] at hp
      dsimp only at hp
      have hcp : 0 < ps.countP fun pr => decide (c < pr.2) := by omega
      obtain ⟨p0, hp0, hp0c⟩ := List.countP_pos_iff.mp hcp
      have hq : c < q.2 :=
        lt_of_lt_of_le (by simpa using hp0c) (argmaxBy_qGT_max ps q hrec p0 hp0)
      rcases List.mem_cons.mp hp with hp | hp
      · subst hp; exact hq
      · have hqmem : q ∈ ps := argmaxBy_mem qGT ps q hrec
        have hcount := countP_erase_of_mem (fun pr => decide (c < pr.2)) ps q hqmem
        refine ih (ps.erase q) ?_ p hp
        rw [if_pos (show decide (c < q.2) = true by simpa using hq)] at hcount
        omega

theorem filterMap_ite {α β : Type} (c : α → Prop) [DecidablePred c] (f : α → β)
    (l : List α) :
    l.filterMap (fun p => if c p then some (f p) else none) =
      (l.filter fun p => decide (c p)).map f := by
  induction l with
  | nil => rfl
  | cons a t ih =>
    by_cases h : c a <;> simp [List.filterMap_cons, List.filter_cons, h, ih]

/-- C6 (amended): in every decoding step each selected STOP pair moves the
parent hypothesis — without STOP appended — into the finished lists with
its candidate score, and its slot becomes a killed placeholder
(parent padded with PAD, score `-1e9`); each selected non-STOP pair gets
its token appended and keeps the candidate score.  Moreover, when the
log-probabilities are `≤ 0` and at least `beam_width` candidates score
strictly above `-1e9`, every selected pair comes from a parent with score
strictly above `-1e9` — so a killed `-1e9` slot is not selected in such a
step (the unconditional "never selected in any later step" of the original
claim is refuted by `beam_step_killed_selected_cex`). -/
theorem beam_step_stop_handling (env : DecodeEnv) (enc : List Nat) (bw : Nat)
    (st : BeamState) :
    ((beamStep env enc bw st).finishedSeqs = st.finishedSeqs ++
      ((stepSel env enc bw st).filter fun p =>
        decide (p.1 % stepV env enc st = env.STOP_TOKEN)).map
        (fun p => st.sequences.getD (p.1 / stepV env enc st) [])) ∧
    ((beamStep env enc bw st).finishedScores = st.finishedScores ++
      ((stepSel env enc bw st).filter fun p =>
        decide (p.1 % stepV env enc st = env.STOP_TOKEN)).map Prod.snd) ∧
    (∀ (k : Nat) (p : Nat × ℚ), (stepSel env enc bw st)[k]? = some p →
      (p.1 % stepV env enc st = env.STOP_TOKEN →
        (beamStep env enc bw st).sequences[k]? =
          some (st.sequences.getD (p.1 / stepV env enc st) [] ++ [env.PAD_TOKEN]) ∧
        (beamStep env enc bw st).scores[k]? = some (-(10 ^ 9 : ℚ))) ∧
      (p.1 % stepV env enc st ≠ env.STOP_TOKEN →
        (beamStep env enc bw st).sequences[k]? =
          some (st.sequences.getD (p.1 / stepV env enc st) [] ++ [p.1 % stepV env enc st]) ∧
        (beamStep env enc bw st).scores[k]? = some p.2)) ∧
    ((∀ row ∈ stepLP env enc st, ∀ q ∈ row, q ≤ 0) →
      st.scores.length = (stepLP env enc st).length →
      (∀ row ∈ stepLP env enc st, row.length = stepV env enc st) →
      bw ≤ (stepFlat env enc st).countP (fun q => decide (-(10 ^ 9 : ℚ) < q)) →
      ∀ p ∈ stepSel env enc bw st,
        -(10 ^ 9 : ℚ) < st.scores.getD (p.1 / stepV env enc st) 0) := by
  refine ⟨?_, ?_, ?_, ?_⟩
  · simp only [beamStep]
    congr 1
    rw [List.map_filterMap,
      ← filterMap_ite (fun p : Nat × ℚ => p.1 % stepV env enc st = env.STOP_TOKEN)
        (fun p => st.sequences.getD (p.1 / stepV env enc st) []) (stepSel env enc bw st)]
    congr 1
    funext a
    by_cases h : a.1 % stepV env enc st = env.STOP_TOKEN <;> simp [h]
  · simp only [beamStep]
    congr 1
    rw [List.map_filterMap,
      ← filterMap_ite (fun p : Nat × ℚ => p.1 % stepV env enc st = env.STOP_TOKEN)
        Prod.snd (stepSel env enc bw st)]
    congr 1
    funext a
    by_cases h : a.1 % stepV env enc st = env.STOP_TOKEN <;> simp [h]
  · intro k p hsel
    constructor
    · intro hstop
      constructor
      · simp only [beamStep, List.getElem?_map, hsel, Option.map_some']
        rw [if_pos hstop]
      · simp only [beamStep, List.getElem?_map, hsel, Option.map_some']
        rw [if_pos hstop]
    · intro hstop
      constructor
      · simp only [beamStep, List.getElem?_map, hsel, Option.map_some']
        rw [if_neg hstop]
      · simp only [beamStep, List.getElem?_map, hsel, Option.map_some']
        rw [if_neg hstop]
  · intro hle hlen hrows hcount p hp
    have hpmem : p ∈ (stepFlat env enc st).enum := topKAux_subset bw _ p hp
    have hval : -(10 ^ 9 : ℚ) < p.2 := by
      refine topKAux_countP _ bw _ ?_ p hp
      rw [enum_countP]
      exact hcount
    have hflat : (stepFlat env enc st)[p.1]? = some p.2 :=
      List.mk_mem_enum_iff_getElem?.mp (by simpa using hpmem)
    have hzrows : ∀ pr ∈ st.scores.zip (stepLP env enc st),
        pr.2.length = stepV env enc st :=
      fun pr hpr => hrows pr.2 (List.of_mem_zip hpr).2
    have hzlen : (st.scores.zip (stepLP env enc st)).length =
        (stepLP env enc st).length := by
      rw [List.length_zip, hlen]
      exact min_self _
    have hflatlen : (stepFlat env enc st).length =
        (stepLP env enc st).length * stepV env enc st := by
      rw [stepFlat, flatScores_length _ _ hzrows, hzlen]
    have hp1 : p.1 < (stepLP env enc st).length * stepV env enc st := by
      have h2 : p.1 < (stepFlat env enc st).length := by
        by_contra h3
        rw [List.getElem?_eq_none (le_of_not_lt h3)] at hflat
        exact Option.noConfusion hflat
      rwa [hflatlen] at h2
    have hV : 0 < stepV env enc st := by
      rcases Nat.eq_zero_or_pos (stepV env enc st) with h0 | h0
      · rw [h0, Nat.mul_zero] at hp1; omega
      · exact h0
    have hb : p.1 / stepV env enc st < (stepLP env enc st).length :=
      (Nat.div_lt_iff_lt_mul hV).mpr hp1
    have ht : p.1 % stepV env enc st < stepV env enc st := Nat.mod_lt _ hV
    have hb2 : p.1 / stepV env enc st < (st.scores.zip (stepLP env enc st)).length := by
      rw [hzlen]; exact hb
    have hblen : p.1 / stepV env enc st < st.scores.length := by
      rw [hlen]; exact hb
    have hkey := flatScores_getElem (st.scores.zip (stepLP env enc st))
      (stepV env enc st) hzrows (p.1 / stepV env enc st) (p.1 % stepV env enc st) hb2 ht
    rw [show p.1 / stepV env enc st * stepV env enc st + p.1 % stepV env enc st = p.1 by
      rw [Nat.mul_comm]; exact Nat.div_add_mod p.1 (stepV env enc st)] at hkey
    obtain ⟨sv, hsv⟩ : ∃ sv, st.scores[p.1 / stepV env enc st]? = some sv :=
      ⟨_, List.getElem?_eq_getElem hblen⟩
    obtain ⟨row, hrow⟩ : ∃ row, (stepLP env enc st)[p.1 / stepV env enc st]? = some row :=
      ⟨_, List.getElem?_eq_getElem hb⟩
    have hzip : (st.scores.zip (stepLP env enc st))[p.1 / stepV env enc st]? =
        some (sv, row) :=
      List.getElem?_zip_eq_some.mpr ⟨hsv, hrow⟩
    have hzb : (st.scores.zip (stepLP env enc st)).getD (p.1 / stepV env enc st) (0, []) =
        (sv, row) := by
      rw [List.getD_eq_getElem?_getD, hzip]
      rfl
    rw [hzb] at hkey
    have hflat2 : ((st.scores.zip (stepLP env enc st)).flatMap
        fun p => p.2.map fun q => p.1 + q)[p.1]? = some p.2 := by
      simpa only [stepFlat] using hflat
    have hv2 : p.2 = sv + row.getD (p.1 % stepV env enc st) 0 :=
      (Option.some.inj (hkey.symm.trans hflat2)).symm
    have hrowmem : row ∈ stepLP env enc st := List.getElem?_mem hrow
    have hrlen : row.length = stepV env enc st := hrows row hrowmem
    have htr : p.1 % stepV env enc st < row.length := by rw [hrlen]; exact ht
    obtain ⟨q0, hq0⟩ : ∃ q0, row[p.1 % stepV env enc st]? = some q0 :=
      ⟨_, List.getElem?_eq_getElem htr⟩
    have hq0le : q0 ≤ 0 := hle row hrowmem q0 (List.getElem?_mem hq0)
    have hgd : row.getD (p.1 % stepV env enc st) 0 = q0 := by
      rw [List.getD_eq_getElem?_getD, hq0]
      rfl
    have hsgd : st.scores.getD (p.1 / stepV env enc st) 0 = sv := by
      rw [List.getD_eq_getElem?_getD, hsv]
      rfl
    rw [hsgd]
    rw [hgd] at hv2
    linarith

attribute [local semireducible] Rat.add Rat.mul Rat.inv Rat.sub

/-- An oracle of plausible (nonpositive) log-probabilities under which the
slot killed in the first step is selected again — twice — in the second
step: the live beam's candidates all fall below the killed slot's
`-1e9 + log_prob` candidates. -/
def cexEnv : DecodeEnv :=
  ⟨1, 2, 0, fun _ => 0, fun _ => "", fun _ _ cl =>
    if cl = 1 then [[-(4 / 5), -(9 / 10), -(3 / 5)], [-(1 / 2), -(1 / 2), -(1 / 2)]]
    else [[-(1 / 2), -(1 / 2), -(1 / 2)],
          [-(2 * 10 ^ 9), -(2 * 10 ^ 9), -(2 * 10 ^ 9)]]⟩

/-- The beam state after the first decoding step under `cexEnv` with
`beam_width = 2`: slot 0 chose STOP (finished `[START]`) and was killed. -/
def cexSt1 : BeamState := beamStep cexEnv [] 2 (initBeam cexEnv 2)

/-- C6 counterexample: after step 1 the slot 0 placeholder is killed
(score `-1e9`, its parent moved to the finished list), yet in the next
step both selected (hypothesis, token) pairs have beam index 0 — the
killed placeholder IS selected for expansion in a later step, refuting
the claim's "never selected" clause. -/
theorem beam_step_killed_selected_cex :
    cexSt1.scores[0]? = some (-(10 ^ 9 : ℚ)) ∧
    cexSt1.finishedSeqs = [[1]] ∧
    (∀ row ∈ stepLP cexEnv [] cexSt1, ∀ q ∈ row, q ≤ 0) ∧
    ((stepSel cexEnv [] 2 cexSt1).map fun p => p.1 / stepV cexEnv [] cexSt1) =
      [0, 0] := by
  refine ⟨?_, ?_, ?_, ?_⟩ <;> decide

theorem beam_step_stop_handling_witness :
    (∀ row ∈ stepLP sampleEnv [] (initBeam sampleEnv 3), ∀ q ∈ row, q ≤ 0) ∧
    (initBeam sampleEnv 3).scores.length =
      (stepLP sampleEnv [] (initBeam sampleEnv 3)).length ∧
    (∀ row ∈ stepLP sampleEnv [] (initBeam sampleEnv 3),
      row.length = stepV sampleEnv [] (initBeam sampleEnv 3)) ∧
    3 ≤ (stepFlat sampleEnv [] (initBeam sampleEnv 3)).countP
      (fun q => decide (-(10 ^ 9 : ℚ) < q)) ∧
    (∀ p ∈ stepSel sampleEnv [] 3 (initBeam sampleEnv 3),
      -(10 ^ 9 : ℚ) <
        (initBeam sampleEnv 3).scores.getD
          (p.1 / stepV sampleEnv [] (initBeam sampleEnv 3)) 0) :=
  ⟨by decide, by decide, by decide, by decide,
    (beam_step_stop_handling sampleEnv [] 3 (initBeam sampleEnv 3)).2.2.2
      (by decide) (by decide) (by decide) (by decide)⟩

/-! ### C7 — an oracle certain of STOP yields the empty string -/

theorem zip_getD_eq (as : List ℚ) (bs : List (List ℚ)) (b : Nat)
    (hb1 : b < as.length) (hb2 : b < bs.length) :
    (as.zip bs).getD b (0, []) = (as.getD b 0, bs.getD b []) := by
  obtain ⟨x, hx⟩ : ∃ x, as[b]? = some x := ⟨_, List.getElem?_eq_getElem hb1⟩
  obtain ⟨y, hy⟩ : ∃ y, bs[b]? = some y := ⟨_, List.getElem?_eq_getElem hb2⟩
  have hz : (as.zip bs)[b]? = some (x, y) := List.getElem?_zip_eq_some.mpr ⟨hx, hy⟩
  rw [List.getD_eq_getElem?_getD, hz, List.getD_eq_getElem?_getD, hx,
    List.getD_eq_getElem?_getD, hy]
  rfl

theorem stepFlat_getElem (env : DecodeEnv) (enc : List Nat) (st : BeamState) (V : Nat)
    (hlen : st.scores.length = (stepLP env enc st).length)
    (hrows : ∀ row ∈ stepLP env enc st, row.length = V)
    (b t : Nat) (hb : b < (stepLP env enc st).length) (ht : t < V) :
    (stepFlat env enc st)[b * V + t]? =
      some (st.scores.getD b 0 + ((stepLP env enc st).getD b []).getD t 0) := by
  have hzrows : ∀ pr ∈ st.scores.zip (stepLP env enc st), pr.2.length = V :=
    fun pr hpr => hrows pr.2 (List.of_mem_zip hpr).2
  have hb2 : b < (st.scores.zip (stepLP env enc st)).length := by
    rw [List.length_zip, hlen, min_self]
    exact hb
  have h := flatScores_getElem (st.scores.zip (stepLP env enc st)) V hzrows b t hb2 ht
  rw [zip_getD_eq st.scores (stepLP env enc st) b (by rw [hlen]; exact hb) hb] at h
  simpa using h

theorem stepFlat_length (env : DecodeEnv) (enc : List Nat) (st : BeamState) (V : Nat)
    (hlen : st.scores.length = (stepLP env enc st).length)
    (hrows : ∀ row ∈ stepLP env enc st, row.length = V) :
    (stepFlat env enc st).length = (stepLP env enc st).length * V := by
  have hzrows : ∀ pr ∈ st.scores.zip (stepLP env enc st), pr.2.length = V :=
    fun pr hpr => hrows pr.2 (List.of_mem_zip hpr).2
  rw [stepFlat, flatScores_length _ _ hzrows, List.length_zip, hlen, min_self]

theorem stepFlat_elem (env : DecodeEnv) (enc : List Nat) (st : BeamState) (V : Nat)
    (hV : 0 < V)
    (hlen : st.scores.length = (stepLP env enc st).length)
    (hrows : ∀ row ∈ stepLP env enc st, row.length = V)
    (j : Nat) (w : ℚ) (hj : (stepFlat env enc st)[j]? = some w) :
    w = st.scores.getD (j / V) 0 + ((stepLP env enc st).getD (j / V) []).getD (j % V) 0 ∧
      j / V < (stepLP env enc st).length ∧ j % V < V := by
  have hjlen : j < (stepLP env enc st).length * V := by
    have h2 : j < (stepFlat env enc st).length := by
      by_contra h3
      rw [List.getElem?_eq_none (le_of_not_lt h3)] at hj
      exact Option.noConfusion hj
    rwa [stepFlat_length env enc st V hlen hrows] at h2
  have hb : j / V < (stepLP env enc st).length := (Nat.div_lt_iff_lt_mul hV).mpr hjlen
  have ht : j % V < V := Nat.mod_lt _ hV
  have hkey := stepFlat_getElem env enc st V hlen hrows (j / V) (j % V) hb ht
  rw [show j / V * V + j % V = j by rw [Nat.mul_comm]; exact Nat.div_add_mod j V] at hkey
  exact ⟨Option.some.inj (hj.symm.trans hkey), hb, ht⟩

theorem argmaxBy_qGT_unique (ps : List (Nat × ℚ)) (q : Nat × ℚ) (hmem : q ∈ ps)
    (hmax : ∀ p ∈ ps, p ≠ q → p.2 < q.2) : argmaxBy qGT ps = some q := by
  cases h : argmaxBy qGT ps with
  | none =>
    rw [argmaxBy_eq_none] at h
    subst h
    simp at hmem
  | some r =>
    have hr : r ∈ ps := argmaxBy_mem qGT ps r h
    have hle : ∀ p ∈ ps, p.2 ≤ r.2 := argmaxBy_qGT_max ps r h
    by_cases hrq : r = q
    · rw [hrq]
    · exact absurd (hle q hmem) (not_le.mpr (hmax r hr hrq))

theorem foldl_max_le (t : List ℚ) (a c : ℚ) (ha : a ≤ c) (h : ∀ x ∈ t, x ≤ c) :
    t.foldl max a ≤ c := by
  induction t generalizing a with
  | nil => exact ha
  | cons b t2 ih =>
    exact ih (max a b) (max_le ha (h b (List.mem_cons_self _ _)))
      fun x hx => h x (List.mem_cons_of_mem _ hx)

theorem max_getD_le (l : List ℚ) (c : ℚ) (hne : l ≠ []) (h : ∀ x ∈ l, x ≤ c) :
    l.max?.getD 0 ≤ c := by
  cases l with
  | nil => exact absurd rfl hne
  | cons a t =>
    have : (a :: t).max? = some (t.foldl max a) := rfl
    rw [this]
    exact foldl_max_le t a c (h a (List.mem_cons_self _ _))
      fun x hx => h x (List.mem_cons_of_mem _ hx)

theorem snd_mem_of_mem_enumFrom {α : Type} (l : List α) (n : Nat) (p : Nat × α)
    (h : p ∈ l.enumFrom n) : p.2 ∈ l := by
  have h2 := (List.mk_mem_enumFrom_iff_le_and_getElem?_sub.mp (by simpa using h)).2
  exact List.getElem?_mem h2

theorem argmaxIdxBy_head {α : Type} (gt : α → α → Bool) (a : α) (t : List α)
    (h : ∀ p ∈ t, gt p a = false) : argmaxIdxBy gt (a :: t) = 0 := by
  have hmax : argmaxBy gt ((a :: t).enum) = some (0, a) := by
    rw [List.enum_cons]
    simp only [argmaxBy]
    cases hrec : argmaxBy gt (List.enumFrom 1 t) with
    | none => rfl
    | some q =>
      dsimp only
      have hq : q.2 ∈ t := snd_mem_of_mem_enumFrom t 1 q (argmaxBy_mem gt _ q hrec)
      rw [h q.2 hq]
      simp
  unfold argmaxIdxBy
  rw [hmax]

theorem normGT_neg_vs_zero (s : ℚ) (l l2 : Nat) (h : s < 0) :
    normGT s l 0 l2 = false := by
  simp [normGT, not_le.mpr h]

theorem replicate_headD {α : Type} (n : Nat) (x d : α) (h : 1 ≤ n) :
    (List.replicate n x).headD d = x := by
  cases n with
  | zero => omega
  | succ m => simp [List.replicate_succ]

theorem initScores_getD_succ (bw m : Nat) (h : m + 1 < bw) :
    (initScores bw).getD (m + 1) 0 = -(10 ^ 9 : ℚ) := by
  simp only [initScores, List.getD_eq_getElem?_getD, List.getElem?_cons_succ,
    List.getElem?_replicate]
  rw [if_pos (by omega)]
  rfl

theorem initSeqs_getD (env : DecodeEnv) (bw b : Nat) (hb : b < bw) :
    (initSeqs env bw).getD b [] = [env.START_TOKEN] := by
  simp only [initSeqs, List.getD_eq_getElem?_getD, List.getElem?_replicate]
  rw [if_pos hb]
  rfl

theorem detok_start (env : DecodeEnv) : detok env [env.START_TOKEN] = "" := by
  simp [detok, detokList, String.join]

/-- C7: when the oracle is certain of STOP — log-probability 0 for STOP
and at most `-1e9` (the exact-zero-probability floor) for every other
token, at every step — `decode` returns the empty string for every input,
task marker and `beam_width ≥ 1`: the zero-length finished hypothesis
(`[START]` alone) wins the normalized selection and decodes to `""`
without error. -/
theorem beam_decode_stop_certain (env : DecodeEnv) (V bw : Nat) (hbw : 1 ≤ bw)
    (hlen : ∀ enc dec cl, (env.oracle enc dec cl).length = dec.length)
    (hrows : ∀ enc dec cl, ∀ row ∈ env.oracle enc dec cl,
      row.length = V ∧ row[env.STOP_TOKEN]? = some 0 ∧
      ∀ (t : Nat) (q : ℚ), row[t]? = some q → t ≠ env.STOP_TOKEN →
        q ≤ -(10 ^ 9 : ℚ))
    (input task : String) :
    decode env input task bw = "" := by
  obtain ⟨k, rfl⟩ : ∃ k, bw = k + 1 := ⟨bw - 1, by omega⟩
  set enc := encodeInput env input task with hencdef
  set st0 := initBeam env (k + 1) with hst0def
  have hseq0 : st0.sequences = List.replicate (k + 1) [env.START_TOKEN] := rfl
  have hsc0 : st0.scores = initScores (k + 1) := rfl
  have hcur : currLen st0 = 1 := by
    rw [currLen, hseq0, replicate_headD _ _ _ (by omega)]
    rfl
  set lp := stepLP env enc st0 with hlpdef
  have hlpor : lp = env.oracle enc (stepDecInput env st0) 1 := by
    rw [hlpdef, stepLP, hcur]
  have hlplen : lp.length = k + 1 := by
    rw [hlpor, hlen, stepDecInput, List.length_map, hseq0, List.length_replicate]
  have hrows' : ∀ row ∈ lp, row.length = V ∧ row[env.STOP_TOKEN]? = some 0 ∧
      ∀ (t : Nat) (q : ℚ), row[t]? = some q → t ≠ env.STOP_TOKEN →
        q ≤ -(10 ^ 9 : ℚ) := by
    rw [hlpor]
    exact hrows _ _ _
  have hlpne : lp ≠ [] := by
    intro h0
    rw [h0] at hlplen
    simp at hlplen
  obtain ⟨row0, lptail, hlp0⟩ : ∃ r t, lp = r :: t := by
    cases h0 : lp with
    | nil => exact absurd h0 hlpne
    | cons r t => exact ⟨r, t, rfl⟩
  have hrow0 := hrows' row0 (by rw [hlp0]; exact List.mem_cons_self _ _)
  have hSTOPlt : env.STOP_TOKEN < V := by
    have h2 := hrow0.2.1
    have h3 : env.STOP_TOKEN < row0.length := by
      by_contra hc
      rw [List.getElem?_eq_none (le_of_not_lt hc)] at h2
      exact Option.noConfusion h2
    rwa [hrow0.1] at h3
  have hV : 0 < V := by omega
  have hVeq : stepV env enc st0 = V := by
    rw [stepV, ← hlpdef, hlp0]
    simpa using hrow0.1
  have hslen : st0.scores.length = lp.length := by
    rw [hlplen, hsc0, initScores, List.length_cons, List.length_replicate]
    omega
  have hrowlens : ∀ row ∈ lp, row.length = V := fun r hr => (hrows' r hr).1
  have hrow_le : ∀ row ∈ lp, ∀ q ∈ row, q ≤ (0 : ℚ) := by
    intro row hr q hq
    obtain ⟨t, hqt⟩ := List.mem_iff_getElem?.mp hq
    by_cases hts : t = env.STOP_TOKEN
    · rw [hts] at hqt
      have h4 := hqt.symm.trans (hrows' row hr).2.1
      rw [Option.some.injEq] at h4
      exact le_of_eq h4
    · exact le_trans ((hrows' row hr).2.2 t q hqt hts) (by norm_num)
  set flat := stepFlat env enc st0 with hflatdef
  have hflatSTOP : flat[env.STOP_TOKEN]? = some 0 := by
    have h := stepFlat_getElem env enc st0 V (hlpdef ▸ hslen) (hlpdef ▸ hrowlens)
      0 env.STOP_TOKEN (by rw [← hlpdef, hlplen]; omega) hSTOPlt
    rw [Nat.zero_mul, Nat.zero_add] at h
    rw [hflatdef, h, ← hlpdef]
    have h1 : st0.scores.getD 0 0 = 0 := rfl
    have h2 : (lp.getD 0 []).getD env.STOP_TOKEN 0 = 0 := by
      rw [hlp0, List.getD_cons_zero, List.getD_eq_getElem?_getD, hrow0.2.1]
      rfl
    rw [h1, h2]
    norm_num
  have hbound : ∀ (j : Nat) (w : ℚ), flat[j]? = some w → j ≠ env.STOP_TOKEN →
      w ≤ -(10 ^ 9 : ℚ) := by
    intro j w hj hjne
    obtain ⟨hw, hbj, htj⟩ := stepFlat_elem env enc st0 V hV (hlpdef ▸ hslen)
      (hlpdef ▸ hrowlens) j w (hflatdef ▸ hj)
    rw [← hlpdef] at hw hbj
    have hrowj : lp.getD (j / V) [] ∈ lp := by
      rw [List.getD_eq_getElem?_getD, List.getElem?_eq_getElem hbj]
      exact List.getElem_mem _
    have hqel : (lp.getD (j / V) [])[j % V]? =
        some ((lp.getD (j / V) []).getD (j % V) 0) := by
      rw [List.getD_eq_getElem?_getD (lp.getD (j / V) []) (j % V) 0,
        List.getElem?_eq_getElem (by rw [hrowlens _ hrowj]; exact htj)]
      rfl
    rcases Nat.eq_zero_or_pos (j / V) with hb0 | hbpos
    · have hjmod : j % V = j := by
        have := Nat.div_add_mod j V
        rw [hb0, Nat.mul_zero, Nat.zero_add] at this
        exact this
      have hq := (hrows' _ hrowj).2.2 (j % V) _ hqel (by rw [hjmod]; exact hjne)
      rw [hb0] at hq
      rw [hw, hb0, hsc0]
      have : (initScores (k + 1)).getD 0 0 = 0 := rfl
      rw [this]
      linarith
    · obtain ⟨m, hm⟩ : ∃ m, j / V = m + 1 := ⟨j / V - 1, by omega⟩
      have hsD : st0.scores.getD (j / V) 0 = -(10 ^ 9 : ℚ) := by
        rw [hsc0, hm]
        exact initScores_getD_succ (k + 1) m (by rw [← hm, ← hlplen]; exact hbj)
      have hq0 : (lp.getD (j / V) []).getD (j % V) 0 ≤ 0 :=
        hrow_le _ hrowj _ (List.getElem?_mem hqel)
      rw [hw, hsD]
      linarith
  have hargmax : argmaxBy qGT flat.enum = some (env.STOP_TOKEN, 0) := by
    refine argmaxBy_qGT_unique _ _ (List.mk_mem_enum_iff_getElem?.mpr hflatSTOP) ?_
    intro p hp hne
    have hpflat : flat[p.1]? = some p.2 :=
      List.mk_mem_enum_iff_getElem?.mp (by simpa using hp)
    by_cases hps : p.1 = env.STOP_TOKEN
    · exfalso
      rw [hps] at hpflat
      have h4 := hpflat.symm.trans hflatSTOP
      rw [Option.some.injEq] at h4
      exact hne (Prod.ext hps h4)
    · have h5 := hbound p.1 p.2 hpflat hps
      show p.2 < (0 : ℚ)
      linarith
  have hsel : stepSel env enc (k + 1) st0 =
      (env.STOP_TOKEN, (0 : ℚ)) :: topKAux k (flat.enum.erase (env.STOP_TOKEN, 0)) := by
    rw [stepSel, ← hflatdef, topK]
    show topKAux (k + 1) flat.enum = _
    simp only [topKAux]
    rw [hargmax]
  have htail : ∀ p ∈ topKAux k (flat.enum.erase (env.STOP_TOKEN, (0 : ℚ))),
      p.2 ≤ -(10 ^ 9 : ℚ) := by
    intro p hp
    have hp2 := topKAux_subset _ _ p hp
    have hp3 := (List.Nodup.mem_erase_iff (enum_nodup flat)).mp hp2
    have hpflat : flat[p.1]? = some p.2 :=
      List.mk_mem_enum_iff_getElem?.mp (by simpa using hp3.2)
    by_cases hps : p.1 = env.STOP_TOKEN
    · exfalso
      rw [hps] at hpflat
      have h4 := hpflat.symm.trans hflatSTOP
      rw [Option.some.injEq] at h4
      exact hp3.1 (Prod.ext hps h4)
    · exact hbound p.1 p.2 hpflat hps
  set st1 := beamStep env enc (k + 1) st0 with hst1def
  have hstop_mod : env.STOP_TOKEN % V = env.STOP_TOKEN := Nat.mod_eq_of_lt hSTOPlt
  have hstop_div : env.STOP_TOKEN / V = 0 := Nat.div_eq_of_lt hSTOPlt
  have hparent0 : st0.sequences.getD (env.STOP_TOKEN / stepV env enc st0) [] =
      [env.START_TOKEN] := by
    rw [hVeq, hstop_div, hseq0]
    exact initSeqs_getD env (k + 1) 0 (by omega)
  have hsc1 : st1.scores = (-(10 ^ 9 : ℚ)) ::
      (topKAux k (flat.enum.erase (env.STOP_TOKEN, 0))).map
        (fun p => if p.1 % stepV env enc st0 = env.STOP_TOKEN then -(10 ^ 9 : ℚ)
          else p.2) := by
    rw [hst1def]
    show ((stepSel env enc (k + 1) st0).map _).map Prod.snd = _
    rw [hsel]
    simp only [List.map_cons, List.map_map]
    congr 1
    · rw [if_pos (by rw [hVeq]; exact hstop_mod)]
    · apply List.map_congr_left
      intro p hp
      show ((if p.1 % stepV env enc st0 = env.STOP_TOKEN then
          (st0.sequences.getD (p.1 / stepV env enc st0) [] ++ [env.PAD_TOKEN],
            -(10 ^ 9 : ℚ))
        else (st0.sequences.getD (p.1 / stepV env enc st0) [] ++
            [p.1 % stepV env enc st0], p.2)) : List Nat × ℚ).2 = _
      by_cases hc : p.1 % stepV env enc st0 = env.STOP_TOKEN
      · rw [if_pos hc, if_pos hc]
      · rw [if_neg hc, if_neg hc]
  have hsc1le : ∀ s ∈ st1.scores, s ≤ -(10 ^ 9 : ℚ) := by
    intro s hs
    rw [hsc1] at hs
    rcases List.mem_cons.mp hs with hs | hs
    · rw [hs]
    · obtain ⟨p, hpmem, hps⟩ := List.mem_map.mp hs
      by_cases hsp : p.1 % stepV env enc st0 = env.STOP_TOKEN
      · rw [if_pos hsp] at hps
        rw [← hps]
      · rw [if_neg hsp] at hps
        rw [← hps]
        exact htail p hpmem
  have hfin1 : st1.finishedSeqs = [env.START_TOKEN] ::
      ((topKAux k (flat.enum.erase (env.STOP_TOKEN, 0))).filterMap
        (fun p => if p.1 % stepV env enc st0 = env.STOP_TOKEN then
          some (st0.sequences.getD (p.1 / stepV env enc st0) [], p.2)
          else none)).map Prod.fst := by
    rw [hst1def]
    show st0.finishedSeqs ++ _ = _
    rw [hsel]
    simp only [List.filterMap_cons]
    rw [if_pos (by rw [hVeq]; exact hstop_mod)]
    show [] ++ _ = _
    rw [List.nil_append, List.map_cons, hparent0]
  have hfs1 : st1.finishedScores = (0 : ℚ) ::
      ((topKAux k (flat.enum.erase (env.STOP_TOKEN, 0))).filterMap
        (fun p => if p.1 % stepV env enc st0 = env.STOP_TOKEN then
          some (st0.sequences.getD (p.1 / stepV env enc st0) [], p.2)
          else none)).map Prod.snd := by
    rw [hst1def]
    show st0.finishedScores ++ _ = _
    rw [hsel]
    simp only [List.filterMap_cons]
    rw [if_pos (by rw [hVeq]; exact hstop_mod)]
    show [] ++ _ = _
    rw [List.nil_append, List.map_cons]
  have hfs1le : ∀ s ∈ ((topKAux k (flat.enum.erase (env.STOP_TOKEN, (0 : ℚ)))).filterMap
      (fun p => if p.1 % stepV env enc st0 = env.STOP_TOKEN then
        some (st0.sequences.getD (p.1 / stepV env enc st0) [], p.2)
        else none)).map Prod.snd, s ≤ -(10 ^ 9 : ℚ) := by
    intro s hs
    obtain ⟨pr, hprmem, hprs⟩ := List.mem_map.mp hs
    obtain ⟨p, hpmem, hpf⟩ := List.mem_filterMap.mp hprmem
    by_cases hsp : p.1 % stepV env enc st0 = env.STOP_TOKEN
    · rw [if_pos hsp, Option.some.injEq] at hpf
      rw [← hprs, ← hpf]
      exact htail p hpmem
    · rw [if_neg hsp] at hpf
      exact Option.noConfusion hpf
  -- the loop exits after the first step
  have hloop : decodeLoop env enc (k + 1) (MAX_LEN - 1) st0 = st1 := by
    rw [show MAX_LEN - 1 = 38 + 1 from rfl]
    show (let st2 := beamStep env enc (k + 1) st0
      if st2.scores.max?.getD 0 < -(10 ^ 8 : ℚ) then st2
      else decodeLoop env enc (k + 1) 38 st2) = st1
    rw [← hst1def]
    have hne1 : st1.scores ≠ [] := by
      rw [hsc1]
      exact List.cons_ne_nil _ _
    have hmax : st1.scores.max?.getD 0 < -(10 ^ 8 : ℚ) := by
      have := max_getD_le st1.scores (-(10 ^ 9 : ℚ)) hne1 hsc1le
      linarith
    simp only [hmax, if_true]
  -- final selection picks the finished [START]
  have hfinal : decodeFinal env st1 = [env.START_TOKEN] := by
    unfold decodeFinal
    rw [if_pos (by rw [hfs1]; simp)]
    rw [hfs1]
    rw [hfin1]
    simp only [List.map_cons, List.zip_cons_cons, List.length_cons,
      List.length_nil]
    rw [argmaxIdxBy_head]
    · rfl
    · intro p hp
      have hp1 : p.1 ∈ ((topKAux k (flat.enum.erase (env.STOP_TOKEN, (0 : ℚ)))).filterMap
          (fun p => if p.1 % stepV env enc st0 = env.STOP_TOKEN then
            some (st0.sequences.getD (p.1 / stepV env enc st0) [], p.2)
            else none)).map Prod.snd := (List.of_mem_zip hp).1
      have hple := hfs1le p.1 hp1
      show normGTp p (0, 0 + 1) = false
      rw [normGTp]
      exact normGT_neg_vs_zero p.1 p.2 (0 + 1) (by linarith)
  rw [decode, ← hencdef, ← hst0def, hloop, hfinal]
  exact detok_start env


/-- A concrete environment whose oracle is certain of STOP (= token 2)
at every step, with vocabulary size 3. -/
def stopEnv : DecodeEnv :=
  ⟨1, 2, 0, fun _ => 0, fun _ => "", fun _ dec _ =>
    dec.map fun _ => [-(10 ^ 9 : ℚ), -(10 ^ 9), 0]⟩

theorem beam_decode_stop_certain_witness :
    1 ≤ 3 ∧ decode stopEnv "abc" "<" 3 = "" := by
  refine ⟨by norm_num, beam_decode_stop_certain stopEnv 3 3 (by norm_num) ?_ ?_ "abc" "<"⟩
  · intro enc dec cl
    simp [stopEnv]
  · intro enc dec cl row hrow
    simp only [stopEnv, List.mem_map] at hrow
    obtain ⟨x, hx, hxr⟩ := hrow
    refine ⟨by rw [← hxr]; rfl, by rw [← hxr]; rfl, ?_⟩
    intro t q hq ht
    rw [← hxr] at hq
    match t, ht with
    | 0, _ => exact le_of_eq (Option.some.inj hq).symm
    | 1, _ => exact le_of_eq (Option.some.inj hq).symm
    | 2, ht => exact absurd rfl ht
    | n + 3, _ => exact Option.noConfusion hq

/-! ### C4: final result selection with length normalization -/

theorem len_rpow_pow (l : Nat) :
    ((l : ℝ) ^ ((7 : ℝ) / 10)) ^ (10 : ℕ) = (l : ℝ) ^ (7 : ℕ) := by
  have h0 : (0 : ℝ) ≤ (l : ℝ) := Nat.cast_nonneg l
  rw [← Real.rpow_natCast ((l : ℝ) ^ ((7 : ℝ) / 10)) 10, ← Real.rpow_mul h0,
    show (7 : ℝ) / 10 * ((10 : ℕ) : ℝ) = ((7 : ℕ) : ℝ) by norm_num,
    Real.rpow_natCast]

/-- The computable comparison `normGT` decides exactly the comparison of
the real length-normalized scores `s / len ** 0.7` (for positive lengths). -/
theorem normGT_iff (s1 s2 : ℚ) (l1 l2 : Nat) (h1 : 1 ≤ l1) (h2 : 1 ≤ l2) :
    normGT s1 l1 s2 l2 = true ↔
      (s2 : ℝ) / (l2 : ℝ) ^ ((7 : ℝ) / 10) < (s1 : ℝ) / (l1 : ℝ) ^ ((7 : ℝ) / 10) := by
  have ha : (0 : ℝ) < (l1 : ℝ) ^ ((7 : ℝ) / 10) :=
    Real.rpow_pos_of_pos (by exact_mod_cast Nat.lt_of_lt_of_le Nat.zero_lt_one h1) _
  have hb : (0 : ℝ) < (l2 : ℝ) ^ ((7 : ℝ) / 10) :=
    Real.rpow_pos_of_pos (by exact_mod_cast Nat.lt_of_lt_of_le Nat.zero_lt_one h2) _
  rw [div_lt_div_iff₀ hb ha]
  unfold normGT
  by_cases hs1 : 0 ≤ s1 <;> by_cases hs2 : 0 ≤ s2
  · rw [if_pos hs1, if_pos hs2, decide_eq_true_eq]
    have hs1r : (0 : ℝ) ≤ (s1 : ℚ) := by exact_mod_cast hs1
    have hs2r : (0 : ℝ) ≤ (s2 : ℚ) := by exact_mod_cast hs2
    have key : (s2 : ℝ) * (l1 : ℝ) ^ ((7 : ℝ) / 10) < (s1 : ℝ) * (l2 : ℝ) ^ ((7 : ℝ) / 10) ↔
        (s2 : ℝ) ^ (10 : ℕ) * (l1 : ℝ) ^ (7 : ℕ) < (s1 : ℝ) ^ (10 : ℕ) * (l2 : ℝ) ^ (7 : ℕ) := by
      rw [← pow_lt_pow_iff_left₀ (mul_nonneg hs2r ha.le) (mul_nonneg hs1r hb.le)
        (show (10 : ℕ) ≠ 0 by norm_num), mul_pow, mul_pow, len_rpow_pow l1, len_rpow_pow l2]
    rw [key]
    constructor
    · intro h; exact_mod_cast h
    · intro h; exact_mod_cast h
  · rw [if_pos hs1, if_neg hs2]
    have hs1r : (0 : ℝ) ≤ (s1 : ℚ) := by exact_mod_cast hs1
    have hs2r : ((s2 : ℚ) : ℝ) < 0 := by exact_mod_cast not_le.mp hs2
    simp only [true_iff]
    exact lt_of_lt_of_le (mul_neg_of_neg_of_pos hs2r ha) (mul_nonneg hs1r hb.le)
  · rw [if_neg hs1, if_pos hs2]
    have hs1r : ((s1 : ℚ) : ℝ) < 0 := by exact_mod_cast not_le.mp hs1
    have hs2r : (0 : ℝ) ≤ (s2 : ℚ) := by exact_mod_cast hs2
    simp only [Bool.false_eq_true, false_iff, not_lt]
    exact le_trans (mul_neg_of_neg_of_pos hs1r hb).le (mul_nonneg hs2r ha.le)
  · rw [if_neg hs1, if_neg hs2, decide_eq_true_eq]
    have hs1r : ((s1 : ℚ) : ℝ) < 0 := by exact_mod_cast not_le.mp hs1
    have hs2r : ((s2 : ℚ) : ℝ) < 0 := by exact_mod_cast not_le.mp hs2
    have key : (s2 : ℝ) * (l1 : ℝ) ^ ((7 : ℝ) / 10) < (s1 : ℝ) * (l2 : ℝ) ^ ((7 : ℝ) / 10) ↔
        (s1 : ℝ) ^ (10 : ℕ) * (l2 : ℝ) ^ (7 : ℕ) < (s2 : ℝ) ^ (10 : ℕ) * (l1 : ℝ) ^ (7 : ℕ) := by
      rw [show ((s2 : ℝ) * (l1 : ℝ) ^ ((7 : ℝ) / 10) < (s1 : ℝ) * (l2 : ℝ) ^ ((7 : ℝ) / 10)) ↔
          (-((s1 : ℝ) * (l2 : ℝ) ^ ((7 : ℝ) / 10)) < -((s2 : ℝ) * (l1 : ℝ) ^ ((7 : ℝ) / 10)))
        from (neg_lt_neg_iff).symm,
        ← pow_lt_pow_iff_left₀
          (neg_nonneg.mpr (mul_nonpos_of_nonpos_of_nonneg hs1r.le hb.le))
          (neg_nonneg.mpr (mul_nonpos_of_nonpos_of_nonneg hs2r.le ha.le))
          (show (10 : ℕ) ≠ 0 by norm_num),
        Even.neg_pow (by decide) ((s1 : ℝ) * (l2 : ℝ) ^ ((7 : ℝ) / 10)),
        Even.neg_pow (by decide) ((s2 : ℝ) * (l1 : ℝ) ^ ((7 : ℝ) / 10)),
        mul_pow, mul_pow, len_rpow_pow l1, len_rpow_pow l2]
    rw [key]
    constructor
    · intro h; exact_mod_cast h
    · intro h; exact_mod_cast h

theorem normGT_irrefl (s : ℚ) (l : Nat) : normGT s l s l = false := by
  unfold normGT
  split_ifs <;> simp_all

theorem enum_mem_getElem {α : Type} (xs : List α) (q : Nat × α) (h : q ∈ xs.enum) :
    xs[q.1]? = some q.2 := by
  obtain ⟨i, v⟩ := q
  exact List.mk_mem_enum_iff_getElem?.mp h

theorem enum_mem_lt {α : Type} (xs : List α) (q : Nat × α) (h : q ∈ xs.enum) :
    q.1 < xs.length := by
  have hg := enum_mem_getElem xs q h
  by_contra hc
  rw [List.getElem?_eq_none (by omega)] at hg
  exact Option.noConfusion hg

theorem mem_enum_getD {α : Type} (xs : List α) (j : Nat) (d : α) (h : j < xs.length) :
    (j, xs.getD j d) ∈ xs.enum := by
  apply List.mk_mem_enum_iff_getElem?.mpr
  rw [List.getD_eq_getElem?_getD, List.getElem?_eq_getElem h]
  rfl

theorem getD_of_getElem? {α : Type} (xs : List α) (j : Nat) (d v : α)
    (h : xs[j]? = some v) : xs.getD j d = v := by
  rw [List.getD_eq_getElem?_getD, h]
  rfl

/-- Reading the zipped (score, length) list at an in-range index. -/
theorem zipLen_getD (as : List ℚ) (bs : List (List Nat)) (j : Nat)
    (h1 : j < as.length) (h2 : j < bs.length) :
    (as.zip (bs.map List.length)).getD j (0, 0) =
      (as.getD j 0, (bs.getD j []).length) := by
  obtain ⟨x, hx⟩ : ∃ x, as[j]? = some x := ⟨_, List.getElem?_eq_getElem h1⟩
  obtain ⟨y, hy⟩ : ∃ y, bs[j]? = some y := ⟨_, List.getElem?_eq_getElem h2⟩
  have hy2 : (bs.map List.length)[j]? = some y.length := by
    rw [List.getElem?_map, hy]
    rfl
  have hz : (as.zip (bs.map List.length))[j]? = some (x, y.length) :=
    List.getElem?_zip_eq_some.mpr ⟨hx, hy2⟩
  rw [List.getD_eq_getElem?_getD, hz, List.getD_eq_getElem?_getD, hx,
    List.getD_eq_getElem?_getD, hy]
  rfl

/-- The first `argmaxBy normGTp` maximum really maximizes the real
length-normalized score among the candidates (all of positive length). -/
theorem argmaxBy_normGTp_max (l : List (Nat × (ℚ × Nat)))
    (hlen : ∀ p ∈ l, 1 ≤ p.2.2) (q : Nat × (ℚ × Nat))
    (h : argmaxBy normGTp l = some q) :
    ∀ p ∈ l, (p.2.1 : ℝ) / (p.2.2 : ℝ) ^ ((7 : ℝ) / 10) ≤
      (q.2.1 : ℝ) / (q.2.2 : ℝ) ^ ((7 : ℝ) / 10) := by
  have hq := argmaxBy_mem normGTp l q h
  have h2 := argmaxBy_max normGTp l
    (fun p _ => by
      simp only [normGTp]
      exact normGT_irrefl p.2.1 p.2.2)
    (fun p1 hp1 p2 hp2 hgt => by
      simp only [normGTp] at hgt ⊢
      rw [Bool.eq_false_iff]
      intro hc
      have hx := (normGT_iff p1.2.1 p2.2.1 p1.2.2 p2.2.2 (hlen p1 hp1) (hlen p2 hp2)).mp hgt
      have hy := (normGT_iff p2.2.1 p1.2.1 p2.2.2 p1.2.2 (hlen p2 hp2) (hlen p1 hp1)).mp hc
      exact absurd hy (not_lt.mpr hx.le))
    (fun p1 hp1 p2 hp2 p3 hp3 hn1 hn2 => by
      simp only [normGTp] at hn1 hn2 ⊢
      rw [Bool.eq_false_iff] at hn1 hn2 ⊢
      intro hc
      have hx := (normGT_iff p1.2.1 p3.2.1 p1.2.2 p3.2.2 (hlen p1 hp1) (hlen p3 hp3)).mp hc
      have ha1 := not_lt.mp fun hlt => hn1
        ((normGT_iff p1.2.1 p2.2.1 p1.2.2 p2.2.2 (hlen p1 hp1) (hlen p2 hp2)).mpr hlt)
      have ha2 := not_lt.mp fun hlt => hn2
        ((normGT_iff p2.2.1 p3.2.1 p2.2.2 p3.2.2 (hlen p2 hp2) (hlen p3 hp3)).mpr hlt)
      exact absurd hx (not_lt.mpr (le_trans ha1 ha2)))
    q h
  intro p hp
  have hf := h2 p hp
  simp only [normGTp] at hf
  refine not_lt.mp fun hlt => ?_
  have hc := (normGT_iff p.2.1 q.2.1 p.2.2 q.2.2 (hlen p hp) (hlen q hq)).mpr hlt
  rw [hf] at hc
  exact Bool.false_ne_true hc

/-- C4: after the decoding loop, if any hypothesis ever finished then the
result is the finished sequence maximizing the real length-normalized
score `score / len(seq) ** 0.7` (lowest index on ties); if none finished,
the result is the best-scoring active hypothesis as-is (plain scores,
no normalization, no failure). -/
theorem beam_decode_final_selection (env : DecodeEnv) (input task : String)
    (bw : Nat) (stF : BeamState)
    (hst : decodeLoop env (encodeInput env input task) bw (MAX_LEN - 1)
      (initBeam env bw) = stF)
    (hfl : stF.finishedScores.length = stF.finishedSeqs.length)
    (hne : ∀ s ∈ stF.finishedSeqs, 1 ≤ s.length)
    (hsl : stF.scores.length = stF.sequences.length) :
    (0 < stF.finishedScores.length →
      ∃ i < stF.finishedSeqs.length,
        decode env input task bw = detok env (stF.finishedSeqs.getD i []) ∧
        ∀ j < stF.finishedSeqs.length,
          (stF.finishedScores.getD j 0 : ℝ) /
              ((stF.finishedSeqs.getD j []).length : ℝ) ^ ((7 : ℝ) / 10) ≤
            (stF.finishedScores.getD i 0 : ℝ) /
              ((stF.finishedSeqs.getD i []).length : ℝ) ^ ((7 : ℝ) / 10)) ∧
    (stF.finishedScores.length = 0 → 0 < stF.sequences.length →
      ∃ i < stF.sequences.length,
        decode env input task bw = detok env (stF.sequences.getD i []) ∧
        ∀ j < stF.sequences.length,
          stF.scores.getD j 0 ≤ stF.scores.getD i 0) := by
  have hdec : decode env input task bw = detok env (decodeFinal env stF) := by
    unfold decode
    rw [hst]
  constructor
  · intro hpos
    set L := stF.finishedScores.zip (stF.finishedSeqs.map List.length) with hL
    have hLlen : L.length = stF.finishedScores.length := by
      rw [hL, List.length_zip, List.length_map, ← hfl, min_self]
    obtain ⟨q, hq⟩ : ∃ q, argmaxBy normGTp L.enum = some q := by
      cases hc : argmaxBy normGTp L.enum with
      | none =>
        rw [argmaxBy_eq_none, List.enum_eq_nil] at hc
        rw [hc] at hLlen
        simp only [List.length_nil] at hLlen
        omega
      | some q => exact ⟨q, rfl⟩
    have hqmem := argmaxBy_mem normGTp L.enum q hq
    have hlenpre : ∀ p ∈ L.enum, 1 ≤ p.2.2 := by
      intro p hp
      have hpL : p.2 ∈ L := snd_mem_of_mem_enumFrom L 0 p hp
      have hsnd : p.2.2 ∈ stF.finishedSeqs.map List.length := by
        rw [hL] at hpL
        exact (List.of_mem_zip hpL).2
      rw [List.mem_map] at hsnd
      obtain ⟨s, hs, hlen⟩ := hsnd
      rw [← hlen]
      exact hne s hs
    have hmax := argmaxBy_normGTp_max L.enum hlenpre q hq
    have hidx : argmaxIdxBy normGTp L = q.1 := by
      unfold argmaxIdxBy
      rw [hq]
    have hq2 : L[q.1]? = some q.2 := enum_mem_getElem L q hqmem
    have hiL : q.1 < L.length := enum_mem_lt L q hqmem
    have hiF : q.1 < stF.finishedScores.length := by omega
    have hiS : q.1 < stF.finishedSeqs.length := by omega
    have hqval : L.getD q.1 (0, 0) = q.2 := getD_of_getElem? L q.1 (0, 0) q.2 hq2
    have hqcomp : q.2 =
        (stF.finishedScores.getD q.1 0, (stF.finishedSeqs.getD q.1 []).length) := by
      rw [← hqval, hL]
      exact zipLen_getD _ _ _ hiF hiS
    refine ⟨q.1, hiS, ?_, ?_⟩
    · rw [hdec]
      unfold decodeFinal
      rw [if_pos hpos, ← hL, hidx]
    · intro j hj
      have hjF : j < stF.finishedScores.length := by omega
      have hjL : j < L.length := by omega
      have hjmem : (j, L.getD j (0, 0)) ∈ L.enum := mem_enum_getD L j (0, 0) hjL
      have hjcomp : L.getD j (0, 0) =
          (stF.finishedScores.getD j 0, (stF.finishedSeqs.getD j []).length) := by
        rw [hL]
        exact zipLen_getD _ _ _ hjF hj
      have h1 := hmax (j, L.getD j (0, 0)) hjmem
      rw [hjcomp, hqcomp] at h1
      exact h1
  · intro hzero hpos2
    have hs0 : 0 < stF.scores.length := by omega
    obtain ⟨q, hq⟩ : ∃ q, argmaxBy qGT stF.scores.enum = some q := by
      cases hc : argmaxBy qGT stF.scores.enum with
      | none =>
        rw [argmaxBy_eq_none, List.enum_eq_nil] at hc
        rw [hc] at hs0
        simp only [List.length_nil] at hs0
        omega
      | some q => exact ⟨q, rfl⟩
    have hqmem := argmaxBy_mem qGT stF.scores.enum q hq
    have hq2 : stF.scores[q.1]? = some q.2 := enum_mem_getElem stF.scores q hqmem
    have hiL : q.1 < stF.scores.length := enum_mem_lt stF.scores q hqmem
    have hidx : argmaxIdxBy qGT stF.scores = q.1 := by
      unfold argmaxIdxBy
      rw [hq]
    have hmax := argmaxBy_qGT_max stF.scores.enum q hq
    have hqval : stF.scores.getD q.1 0 = q.2 :=
      getD_of_getElem? stF.scores q.1 0 q.2 hq2
    refine ⟨q.1, by omega, ?_, ?_⟩
    · rw [hdec]
      unfold decodeFinal
      rw [if_neg (by omega), hidx]
    · intro j hj
      have hjs : j < stF.scores.length := by omega
      have hjmem : (j, stF.scores.getD j 0) ∈ stF.scores.enum :=
        mem_enum_getD stF.scores j 0 hjs
      have h1 := hmax (j, stF.scores.getD j 0) hjmem
      rw [hqval]
      exact h1

/-- An environment whose oracle sends every candidate far below the early
exit threshold without ever proposing STOP: no hypothesis ever finishes. -/
def c4Env : DecodeEnv :=
  ⟨1, 2, 0, fun _ => 0, fun _ => "", fun _ _ _ =>
    [[-(2 * 10 ^ 9 : ℚ), -(2 * 10 ^ 9), -(2 * 10 ^ 9)],
     [-(2 * 10 ^ 9), -(2 * 10 ^ 9), -(2 * 10 ^ 9)]]⟩

/-- The state c4Env's decoding loop ends in. -/
def c4St : BeamState :=
  decodeLoop c4Env (encodeInput c4Env "a" "<") 2 (MAX_LEN - 1) (initBeam c4Env 2)

theorem beam_decode_final_selection_witness :
    c4St.finishedScores.length = 0 ∧
    ∃ i < c4St.sequences.length,
      decode c4Env "a" "<" 2 = detok c4Env (c4St.sequences.getD i []) ∧
      ∀ j < c4St.sequences.length, c4St.scores.getD j 0 ≤ c4St.scores.getD i 0 := by
  refine ⟨by decide, ?_⟩
  exact (beam_decode_final_selection c4Env "a" "<" 2 c4St rfl (by decide) (by decide)
    (by decide)).2 (by decide) (by decide)

end PokeBeam
